import Mathlib

/-!
Verification of the AI response normalization layer (`parse_json_response` in
`src/modules/utils.py`) of the product-dev-tool repository.

The function is shallowly embedded over `List Char`.  Its collaborators from the
Python standard library — `json.loads`, `ast.literal_eval`, `str.strip`,
`str.find`, `str.rfind` and the one regular expression
`re.search(r'```(?:json)?\s*(\{[\s\S]*\}|\[[\s\S]*\])\s*```', text)` —
are modelled as executable Lean functions, faithful to CPython on the
JSON-shaped fragment of their domains.  Documented modelling restrictions
(shared by both parsers): numeric literals are finite decimal integers
(floating point, `NaN`/`Infinity` and complex literals are out of scope);
`ast.literal_eval` is modelled on JSON-shaped Python literals (strings with
single or double quotes, integers, `True`/`False`/`None`, lists and
string-keyed dicts with optional trailing commas) and reports other literal
forms (sets, tuples, bytes) as parse failures; a parsed object keeps all its
key/value pairs in textual order; lone `\u` surrogate escapes are rejected.
None of the claims below exercises these corners.
-/

namespace PDT

/-- The set of code points accepted as whitespace by Python's `str.strip()` and
matched by `\s` in a `str` regular expression (`re` module, Unicode mode). -/
def pyWsCodes : List Nat :=
  [0x09, 0x0a, 0x0b, 0x0c, 0x0d, 0x1c, 0x1d, 0x1e, 0x1f, 0x20, 0x85, 0xa0,
   0x1680, 0x2000, 0x2001, 0x2002, 0x2003, 0x2004, 0x2005, 0x2006, 0x2007,
   0x2008, 0x2009, 0x200a, 0x2028, 0x2029, 0x202f, 0x205f, 0x3000]

/-- Whitespace for `str.strip()` and for `\s` in the fence regular expression. -/
def isPyWs (c : Char) : Bool := pyWsCodes.contains c.toNat

/-- Whitespace skipped by `json.loads` between tokens (only space, tab,
newline, carriage return — `json.decoder.WHITESPACE`).  The model also uses it
for the (whitespace-insensitive) token separation of `ast.literal_eval`. -/
def isJsonWs (c : Char) : Bool := c == ' ' || c == '\t' || c == '\n' || c == '\r'

/-- The backtick character, `chr(96)`. -/
def btick : Char := Char.ofNat 96

/-- The single-quote character, `chr(39)`. -/
def squote : Char := Char.ofNat 39

/-- The structured values `parse_json_response` can return: the JSON data
model (with integer numerics; see the header note). -/
inductive JVal : Type where
  | null : JVal
  | bool (b : Bool) : JVal
  | num (n : Int) : JVal
  | str (s : List Char) : JVal
  | arr (elems : List JVal) : JVal
  | obj (members : List (List Char × JVal)) : JVal

/-- Python `str.strip()`: remove leading and trailing whitespace. -/
def stripPy (l : List Char) : List Char :=
  ((l.dropWhile isPyWs).reverse.dropWhile isPyWs).reverse

/-- Python `str.find(ch)`: index of the first occurrence (`-1` becomes `none`). -/
def firstIdx (c : Char) : List Char → Option Nat
  | [] => none
  | a :: r => if a = c then some 0 else (firstIdx c r).map (· + 1)

/-- Python `str.rfind(ch)`: index of the last occurrence (`-1` becomes `none`). -/
def lastIdx (c : Char) : List Char → Option Nat
  | [] => none
  | a :: r =>
    match lastIdx c r with
    | some i => some (i + 1)
    | none => if a = c then some 0 else none

/-- Largest `i < n` with `p i`, scanning downward: the backtracking order of a
greedy `[\s\S]*` that must end at a position satisfying `p`. -/
def lastSat (p : Nat → Bool) : Nat → Option Nat
  | 0 => none
  | n + 1 => if p n then some n else lastSat p n

/-! ### The serializer: CPython `json.dumps` with its default arguments
(`ensure_ascii=True`, separators `", "` and `": "`), restricted to the value
domain `JVal` (integer numerics). -/

/-- Lowercase hexadecimal digit, as CPython's `\uXXXX` escapes print it. -/
def hexDigCh (d : Nat) : Char :=
  if d < 10 then Char.ofNat (48 + d) else Char.ofNat (87 + d)

/-- Four lowercase hex digits of `n % 0x10000`, most significant first. -/
def hex4 (n : Nat) : List Char :=
  [hexDigCh (n / 4096 % 16), hexDigCh (n / 256 % 16), hexDigCh (n / 16 % 16),
   hexDigCh (n % 16)]

/-- The `\uXXXX` escape (a surrogate pair beyond the basic plane), as
`json.dumps` emits for a character outside printable ASCII. -/
def uEsc (c : Char) : List Char :=
  let n := c.toNat
  if n < 0x10000 then '\\' :: 'u' :: hex4 n
  else ('\\' :: 'u' :: hex4 (0xd800 + (n - 0x10000) / 1024)) ++
       ('\\' :: 'u' :: hex4 (0xdc00 + (n - 0x10000) % 1024))

/-- How `json.dumps` writes one character of a string value
(`json.encoder.ESCAPE_DCT` with `ensure_ascii=True`). -/
def escChar (c : Char) : List Char :=
  if c = '"' then ['\\', '"']
  else if c = '\\' then ['\\', '\\']
  else if c = '\n' then ['\\', 'n']
  else if c = '\t' then ['\\', 't']
  else if c = '\r' then ['\\', 'r']
  else if c = Char.ofNat 8 then ['\\', 'b']
  else if c = Char.ofNat 12 then ['\\', 'f']
  else if c.toNat < 0x20 ∨ 0x7e < c.toNat then uEsc c
  else [c]

/-- Escape every character of a string body. -/
def escape : List Char → List Char
  | [] => []
  | c :: s => escChar c ++ escape s

/-- Decimal digits of `n`, most significant first (fuel-structural so that the
kernel can evaluate it). -/
def natDigitsAux : Nat → Nat → List Char
  | 0, _ => []
  | fuel + 1, n =>
    if n < 10 then [Char.ofNat (48 + n)]
    else natDigitsAux fuel (n / 10) ++ [Char.ofNat (48 + n % 10)]

/-- Decimal notation of a natural number. -/
def natToChars (n : Nat) : List Char := natDigitsAux (n + 1) n

/-- How `json.dumps` (equally, Python `repr`) writes an integer. -/
def dumpsInt : Int → List Char
  | .ofNat m => natToChars m
  | .negSucc m => '-' :: natToChars (m + 1)

mutual

/-- `json.dumps` with default arguments, on the modelled value domain. -/
def dumps : JVal → List Char
  | .null => "null".toList
  | .bool true => "true".toList
  | .bool false => "false".toList
  | .num n => dumpsInt n
  | .str s => '"' :: escape s ++ ['"']
  | .arr es => '[' :: dumpsElems es ++ [']']
  | .obj ms => '{' :: dumpsMembers ms ++ ['}']

/-- Array items joined by the default item separator `", "`. -/
def dumpsElems : List JVal → List Char
  | [] => []
  | [v] => dumps v
  | v :: vs => dumps v ++ ',' :: ' ' :: dumpsElems vs

/-- Object members `"key": value` joined by `", "`. -/
def dumpsMembers : List (List Char × JVal) → List Char
  | [] => []
  | [(k, v)] => '"' :: escape k ++ '"' :: ':' :: ' ' :: dumps v
  | (k, v) :: ms =>
    ('"' :: escape k ++ '"' :: ':' :: ' ' :: dumps v) ++ ',' :: ' ' :: dumpsMembers ms

end

mutual

/-- Fuel measure of a value: an upper bound on the recursion depth the parser
needs to read its serialization back. -/
def sz : JVal → Nat
  | .null => 1
  | .bool _ => 1
  | .num _ => 1
  | .str _ => 1
  | .arr es => szElems es + 1
  | .obj ms => szMembers ms + 1

/-- Fuel measure of an array's element list. -/
def szElems : List JVal → Nat
  | [] => 1
  | v :: vs => sz v + szElems vs

/-- Fuel measure of an object's member list. -/
def szMembers : List (List Char × JVal) → Nat
  | [] => 1
  | (_, v) :: ms => sz v + szMembers ms

end

/-! ### The parsers.  One recursive-descent core serves both `json.loads`
(`py = false`) and `ast.literal_eval` (`py = true`); the flag switches the
quote forms, the keyword spellings and the trailing-comma tolerance. -/

/-- Numeric value of a hexadecimal digit character. -/
def hexVal (c : Char) : Option Nat :=
  let n := c.toNat
  if 48 ≤ n ∧ n ≤ 57 then some (n - 48)
  else if 97 ≤ n ∧ n ≤ 102 then some (n - 87)
  else if 65 ≤ n ∧ n ≤ 70 then some (n - 55)
  else none

/-- The one-character escapes of a string literal.  JSON additionally accepts
`\/`; Python additionally accepts `\'`. -/
def simpleEsc (py : Bool) (e : Char) : Option Char :=
  if e = '"' then some '"'
  else if e = '\\' then some '\\'
  else if e = '/' then (if py then none else some '/')
  else if e = 'n' then some '\n'
  else if e = 't' then some '\t'
  else if e = 'r' then some '\r'
  else if e = 'b' then some (Char.ofNat 8)
  else if e = 'f' then some (Char.ofNat 12)
  else if e = squote then (if py then some squote else none)
  else none

/-- May `c` appear unescaped in a string literal?  `json.loads` (strict mode)
rejects raw control characters; a Python single-line literal additionally
admits a raw tab but no newline. -/
def rawOk (py : Bool) (c : Char) : Bool :=
  if py then 0x20 ≤ c.toNat || c == '\t' else 0x20 ≤ c.toNat

/-- The `\uXXXX` escape of a string literal: four hex digits, with a
high-surrogate value followed by a second escaped low surrogate combining to a
supplementary-plane character; a lone surrogate is rejected (header note).
`cont` continues parsing the rest of the string body. -/
def parseUEsc (cont : List Char → Option (List Char × List Char)) (r2 : List Char) :
    Option (List Char × List Char) :=
  match r2 with
  | h1 :: h2 :: h3 :: h4 :: r3 =>
    match hexVal h1, hexVal h2, hexVal h3, hexVal h4 with
    | some a, some b, some c4, some d =>
      let n := 4096 * a + 256 * b + 16 * c4 + d
      if 0xd800 ≤ n ∧ n ≤ 0xdbff then
        match r3 with
        | e1 :: e2 :: k1 :: k2 :: k3 :: k4 :: r4 =>
          if e1 = '\\' ∧ e2 = 'u' then
            match hexVal k1, hexVal k2, hexVal k3, hexVal k4 with
            | some a2, some b2, some c2, some d2 =>
              let m := 4096 * a2 + 256 * b2 + 16 * c2 + d2
              if 0xdc00 ≤ m ∧ m ≤ 0xdfff then
                match cont r4 with
                | some (s, t) =>
                  some (Char.ofNat (0x10000 + 1024 * (n - 0xd800) + (m - 0xdc00)) :: s, t)
                | none => none
              else none
            | _, _, _, _ => none
          else none
        | _ => none
      else if 0xdc00 ≤ n ∧ n ≤ 0xdfff then none
      else
        match cont r3 with
        | some (s, t) => some (Char.ofNat n :: s, t)
        | none => none
    | _, _, _, _ => none
  | _ => none

/-- String-literal body parser: the input starts just after the opening quote
`q`; returns the decoded body and the text after the closing quote. -/
def parseStrAux (py : Bool) (q : Char) : Nat → List Char → Option (List Char × List Char)
  | 0, _ => none
  | _ + 1, [] => none
  | fuel + 1, c :: r =>
    if c = q then some ([], r)
    else if c = '\\' then
      match r with
      | [] => none
      | e :: r2 =>
        if e = 'u' then parseUEsc (parseStrAux py q fuel) r2
        else
          match simpleEsc py e with
          | some ch =>
            match parseStrAux py q fuel r2 with
            | some (s, t) => some (ch :: s, t)
            | none => none
          | none => none
    else if rawOk py c then
      match parseStrAux py q fuel r with
      | some (s, t) => some (c :: s, t)
      | none => none
    else none

/-- Parse a string literal that begins at the head of `l` (used for object
keys as well as for values). -/
def parseKeyStr (py : Bool) (l : List Char) : Option (List Char × List Char) :=
  match l with
  | [] => none
  | c :: r =>
    if c = '"' then parseStrAux py '"' (r.length + 1) r
    else if py ∧ c = squote then parseStrAux py squote (r.length + 1) r
    else none

/-- The keyword literals: `true`/`false`/`null` for JSON,
`True`/`False`/`None` for Python. -/
def parseKw (py : Bool) (l : List Char) : Option (JVal × List Char) :=
  if py then
    if ("True".toList).isPrefixOf l then some (.bool true, l.drop 4)
    else if ("False".toList).isPrefixOf l then some (.bool false, l.drop 5)
    else if ("None".toList).isPrefixOf l then some (.null, l.drop 4)
    else none
  else
    if ("true".toList).isPrefixOf l then some (.bool true, l.drop 4)
    else if ("false".toList).isPrefixOf l then some (.bool false, l.drop 5)
    else if ("null".toList).isPrefixOf l then some (.null, l.drop 4)
    else none

/-- Value of a nonempty digit run. -/
def digsVal (l : List Char) : Nat :=
  l.foldl (fun a c => 10 * a + (c.toNat - 48)) 0

/-- Decimal digit test (`0`–`9`). -/
def isDig (c : Char) : Bool := 48 ≤ c.toNat && c.toNat ≤ 57

/-- Maximal digit run at the head of `l` as a natural number.  Rejects a
leading zero on a multi-digit run and a following `.`/`e`/`E` (a float, which
is outside the modelled numeric domain; see the header note). -/
def parseNatTok (l : List Char) : Option (Nat × List Char) :=
  let digs := l.takeWhile isDig
  let rest := l.dropWhile isDig
  if digs = [] then none
  else if digs.head? = some '0' ∧ 1 < digs.length then none
  else
    match rest with
    | c :: _ => if c = '.' ∨ c = 'e' ∨ c = 'E' then none else some (digsVal digs, rest)
    | [] => some (digsVal digs, [])

/-- An optionally signed integer literal.  Python (but not JSON) admits a
unary `+`. -/
def parseIntTok (py : Bool) (l : List Char) : Option (Int × List Char) :=
  if l.head? = some '-' then (parseNatTok l.tail).map (fun p => ((-(p.1 : Int) : Int), p.2))
  else if py ∧ l.head? = some '+' then (parseNatTok l.tail).map (fun p => ((p.1 : Int), p.2))
  else (parseNatTok l).map (fun p => ((p.1 : Int), p.2))

/-- The array body after the opening `[`: `pv` parses one element, `pvTail`
re-reads the remainder (with the bracket prepended again) as the rest of the
array. -/
def arrStep (py : Bool) (pv pvTail : List Char → Option (JVal × List Char))
    (r : List Char) : Option (JVal × List Char) :=
  let r1 := r.dropWhile isJsonWs
  if r1.head? = some ']' then some (.arr [], r1.tail)
  else
    match pv r1 with
    | none => none
    | some (v, r5) =>
      let r6 := r5.dropWhile isJsonWs
      if r6.head? = some ',' then
        if py ∧ (r6.tail.dropWhile isJsonWs).head? = some ']' then
          some (.arr [v], (r6.tail.dropWhile isJsonWs).tail)
        else
          match pvTail r6.tail with
          | some (.arr vs, r9) => some (.arr (v :: vs), r9)
          | _ => none
      else if r6.head? = some ']' then some (.arr [v], r6.tail)
      else none

/-- The object body after the opening `{`: a string key, a colon, a value,
then either the closer or a comma and the rest of the members. -/
def objStep (py : Bool) (pv pvTail : List Char → Option (JVal × List Char))
    (r : List Char) : Option (JVal × List Char) :=
  let r1 := r.dropWhile isJsonWs
  if r1.head? = some '}' then some (.obj [], r1.tail)
  else
    match parseKeyStr py r1 with
    | none => none
    | some (k, r2) =>
      let r3 := r2.dropWhile isJsonWs
      if r3.head? = some ':' then
        match pv r3.tail with
        | none => none
        | some (v, r5) =>
          let r6 := r5.dropWhile isJsonWs
          if r6.head? = some ',' then
            if py ∧ (r6.tail.dropWhile isJsonWs).head? = some '}' then
              some (.obj [(k, v)], (r6.tail.dropWhile isJsonWs).tail)
            else
              match pvTail r6.tail with
              | some (.obj ms, r9) => some (.obj ((k, v) :: ms), r9)
              | _ => none
          else if r6.head? = some '}' then some (.obj [(k, v)], r6.tail)
          else none
      else none

/-- The recursive-descent value parser, structural on a fuel argument so that
the kernel can evaluate it.  After a separating comma inside an array or
object, the remainder is re-read as a (shorter) array or object by prepending
the opening bracket again, which keeps the recursion on a single function. -/
def parseVal (py : Bool) : Nat → List Char → Option (JVal × List Char)
  | 0, _ => none
  | fuel + 1, input =>
    match input.dropWhile isJsonWs with
    | [] => none
    | c :: r =>
      if c = '{' then
        objStep py (parseVal py fuel) (fun z => parseVal py fuel ('{' :: z)) r
      else if c = '[' then
        arrStep py (parseVal py fuel) (fun z => parseVal py fuel ('[' :: z)) r
      else if c = '"' then
        match parseStrAux py '"' (r.length + 1) r with
        | some (s, r2) => some (.str s, r2)
        | none => none
      else if py ∧ c = squote then
        match parseStrAux py squote (r.length + 1) r with
        | some (s, r2) => some (.str s, r2)
        | none => none
      else
        match parseKw py (c :: r) with
        | some p => some p
        | none => (parseIntTok py (c :: r)).map (fun p => (.num p.1, p.2))

/-- Run a parser over the whole input: one value, optionally surrounded by
whitespace, and nothing after it. -/
def runParse (py : Bool) (l : List Char) : Option JVal :=
  match parseVal py (l.length + 1) l with
  | some (v, rest) => if rest.dropWhile isJsonWs = [] then some v else none
  | none => none

/-- CPython `json.loads`, on the modelled domain (header note). -/
def jsonLoads (l : List Char) : Option JVal := runParse false l

/-- CPython `ast.literal_eval`, on the modelled domain (header note). -/
def pyLiteralEval (l : List Char) : Option JVal := runParse true l

/-! ### The extraction pipeline of `parse_json_response`
(`src/modules/utils.py`, lines 13–76). -/

/-- After a closing `[\s\S]*` position: the regex tail `\s*``` `. -/
def fenceAfterOk (l : List Char) : Bool :=
  [btick, btick, btick].isPrefixOf (l.dropWhile isPyWs)

/-- Greedy close of the regex group: the largest `q` with `r3[q] = cl` whose
suffix continues with `\s*``` `; the group is everything up to and including
that closer. -/
def closeScan (cl : Char) (r3 : List Char) : Option (List Char) :=
  (lastSat (fun q => r3[q]? == some cl && fenceAfterOk (r3.drop (q + 1))) r3.length).map
    (fun q => r3.take (q + 1))

/-- One anchored attempt of the fence regular expression
` ```(?:json)?\s*(\{[\s\S]*\}|\[[\s\S]*\])\s*``` ` at the start of `l`,
returning group 1 on success. -/
def tryFence (l : List Char) : Option (List Char) :=
  match l with
  | c1 :: c2 :: c3 :: r =>
    if c1 = btick ∧ c2 = btick ∧ c3 = btick then
      let r2 := if ("json".toList).isPrefixOf r then r.drop 4 else r
      let r3 := r2.dropWhile isPyWs
      if r3.head? = some '{' then closeScan '}' r3
      else if r3.head? = some '[' then closeScan ']' r3
      else none
    else none
  | _ => none

/-- `re.search` of the fence pattern: the leftmost start position at which the
anchored attempt succeeds (strategy 1 of `parse_json_response`). -/
def fenceSearch : List Char → Option (List Char)
  | [] => none
  | c :: t =>
    match tryFence (c :: t) with
    | some g => some g
    | none => fenceSearch t

/-- Python `text[s : e + 1]` guarded by the `start != -1 and end != -1 and
end > start` test of strategy 2 (falling back to the whole text). -/
def sliceTo (text : List Char) (s : Nat) : Option Nat → List Char
  | some e => if s < e then (text.drop s).take (e + 1 - s) else text
  | none => text

/-- Strategy 2 of `parse_json_response` (lines 37–58): first `{` versus first
`[` decides object or list; the span runs to the `rfind` of the matching
closer. -/
def strategy2 (text : List Char) : List Char :=
  match firstIdx '{' text, firstIdx '[' text with
  | some b, none => sliceTo text b (lastIdx '}' text)
  | some b, some k =>
    if b < k then sliceTo text b (lastIdx '}' text) else sliceTo text k (lastIdx ']' text)
  | none, some k => sliceTo text k (lastIdx ']' text)
  | none, none => text

/-- The two failure modes of `parse_json_response`, both `ValueError` in the
source: the empty-input error (line 27, the spec's `EmptyInputError`) and the
final parse failure (line 76, the spec's `UnparsableResponseError`), the
latter carrying the `json_str[:50]` diagnostic excerpt. -/
inductive PyErr where
  | empty
  | unparsable (diag : List Char)
deriving DecidableEq

/-- Strategies 3 and 4 (lines 62–72): strict `json.loads`, then
`ast.literal_eval`, then the final `ValueError` with the diagnostic excerpt. -/
def tailParse (s : List Char) : Except PyErr JVal :=
  match jsonLoads s with
  | some v => .ok v
  | none =>
    match pyLiteralEval s with
    | some v => .ok v
    | none => .error (.unparsable (s.take 50))

/-- The candidate substring: the regex group if the fence pattern matches,
otherwise the strategy-2 span (or the whole text). -/
def candidate (text : List Char) : List Char :=
  match fenceSearch text with
  | some g => g
  | none => strategy2 text

/-- `parse_json_response` (`src/modules/utils.py`): the falsy-input check,
strategy 1 or 2 to pick a candidate, `str.strip`, then strategies 3 and 4. -/
def extract (text : List Char) : Except PyErr JVal :=
  if text = [] then .error .empty
  else tailParse (stripPy (candidate text))

/-- The spec's `json`-tagged fenced wrapping of a payload (P2). -/
def wrapJson (j : List Char) : List Char :=
  "```json\n".toList ++ j ++ "\n```".toList

/-- The spec's bare fenced wrapping of a payload (P2). -/
def wrapBare (j : List Char) : List Char :=
  "``` ".toList ++ j ++ " ```".toList

/-- A boundary character after a serialized number: the parser must not read
into it.  Satisfied by `','`, `']'`, `'}'` and the end of input. -/
def numBnd (rest : List Char) : Prop :=
  ∀ c, rest.head? = some c → isDig c = false ∧ c ≠ '.' ∧ c ≠ 'e' ∧ c ≠ 'E' ∧ c ≠ '-' ∧ c ≠ '+'

/-! ### Generic list bookkeeping: how `find`/`rfind`/`strip`/`dropWhile` and
the greedy close scan behave on concatenations. -/

theorem dropWhile_app_all {p : Char → Bool} {a : List Char} (b : List Char)
    (h : ∀ x ∈ a, p x = true) : (a ++ b).dropWhile p = b.dropWhile p := by
  induction a with
  | nil => rfl
  | cons c t ih =>
    simp only [List.cons_append, List.dropWhile_cons, h c (by simp), if_true]
    exact ih fun x hx => h x (by simp [hx])

theorem dropWhile_head_false {p : Char → Bool} {l : List Char}
    (h : ∀ c, l.head? = some c → p c = false) : l.dropWhile p = l := by
  cases l with
  | nil => rfl
  | cons c t => simp [List.dropWhile_cons, h c rfl]

theorem takeWhile_app_stop {p : Char → Bool} {a b : List Char}
    (ha : ∀ x ∈ a, p x = true) (hb : ∀ c, b.head? = some c → p c = false) :
    (a ++ b).takeWhile p = a := by
  induction a with
  | nil =>
    cases b with
    | nil => rfl
    | cons c t => simp [List.takeWhile_cons, hb c rfl]
  | cons c t ih =>
    simp only [List.cons_append, List.takeWhile_cons, ha c (by simp), if_true]
    rw [ih fun x hx => ha x (by simp [hx])]

theorem dropWhile_app_stop {p : Char → Bool} {a b : List Char}
    (ha : ∀ x ∈ a, p x = true) (hb : ∀ c, b.head? = some c → p c = false) :
    (a ++ b).dropWhile p = b := by
  rw [dropWhile_app_all b ha]; exact dropWhile_head_false hb

theorem firstIdx_eq_none_iff {c : Char} {l : List Char} :
    firstIdx c l = none ↔ c ∉ l := by
  induction l with
  | nil => simp [firstIdx]
  | cons a t ih =>
    simp only [firstIdx, List.mem_cons]
    by_cases h : a = c
    · subst h; simp
    · have h' : ¬c = a := fun hc => h hc.symm
      simp only [h, if_false, Option.map_eq_none', ih, h', false_or]

theorem firstIdx_app_of_not_mem {c : Char} {a : List Char} (b : List Char)
    (h : c ∉ a) : firstIdx c (a ++ b) = (firstIdx c b).map (· + a.length) := by
  induction a with
  | nil => cases hb : firstIdx c b <;> simp [hb]
  | cons x t ih =>
    have hx : x ≠ c := fun he => h (he ▸ List.mem_cons_self x t)
    have ht : c ∉ t := fun hc => h (List.mem_cons_of_mem x hc)
    have h2 : firstIdx c ((x :: t) ++ b) =
        if x = c then some 0 else (firstIdx c (t ++ b)).map (· + 1) := rfl
    rw [h2, if_neg hx, ih ht]
    cases hb : firstIdx c b with
    | none => rfl
    | some i =>
      simp only [Option.map_some', Option.some.injEq, List.length_cons]
      omega

theorem firstIdx_cons_self (c : Char) (t : List Char) :
    firstIdx c (c :: t) = some 0 := by simp [firstIdx]

theorem lastIdx_eq_none_iff {c : Char} {l : List Char} :
    lastIdx c l = none ↔ c ∉ l := by
  induction l with
  | nil => simp [lastIdx]
  | cons a t ih =>
    simp only [lastIdx, List.mem_cons]
    cases ht : lastIdx c t with
    | some i =>
      have hct : c ∈ t := by
        by_contra hc
        rw [ih.mpr hc] at ht
        exact Option.noConfusion ht
      simp [hct]
    | none =>
      have hct : c ∉ t := ih.mp ht
      by_cases h : a = c
      · subst h; simp
      · have h' : ¬c = a := fun hc => h hc.symm
        simp [h, h', hct]

theorem lastIdx_app_right {c : Char} {b : List Char} {i : Nat} (a : List Char)
    (h : lastIdx c b = some i) : lastIdx c (a ++ b) = some (a.length + i) := by
  induction a with
  | nil => simpa using h
  | cons x t ih =>
    have h2 : lastIdx c ((x :: t) ++ b) =
        match lastIdx c (t ++ b) with
        | some j => some (j + 1)
        | none => if x = c then some 0 else none := rfl
    rw [h2, ih]
    simp only [Option.some.injEq, List.length_cons]
    omega

theorem lastIdx_app_left {c : Char} {b : List Char} (a : List Char)
    (h : c ∉ b) : lastIdx c (a ++ b) = lastIdx c a := by
  induction a with
  | nil => simpa using lastIdx_eq_none_iff.mpr h
  | cons x t ih =>
    have h2 : lastIdx c ((x :: t) ++ b) =
        match lastIdx c (t ++ b) with
        | some j => some (j + 1)
        | none => if x = c then some 0 else none := rfl
    rw [h2, ih]
    rfl

theorem lastIdx_concat_self (c : Char) (a : List Char) :
    lastIdx c (a ++ [c]) = some a.length := by
  have : lastIdx c [c] = some 0 := by simp [lastIdx]
  simpa using lastIdx_app_right a this

theorem lastSat_eq_some {p : Nat → Bool} {n m : Nat} (hm : m < n) (hp : p m = true)
    (habove : ∀ k, m < k → k < n → p k = false) : lastSat p n = some m := by
  induction n with
  | zero => omega
  | succ n ih =>
    by_cases he : m = n
    · subst he; simp [lastSat, hp]
    · have h1 : p n = false := habove n (by omega) (by omega)
      simp only [lastSat, h1, Bool.false_eq_true, if_false]
      exact ih (by omega) fun k hk1 hk2 => habove k hk1 (by omega)

theorem lastSat_eq_none {p : Nat → Bool} {n : Nat} (h : ∀ k < n, p k = false) :
    lastSat p n = none := by
  induction n with
  | zero => rfl
  | succ n ih =>
    simp only [lastSat, h n (by omega), Bool.false_eq_true, if_false]
    exact ih fun k hk => h k (by omega)

theorem stripPy_all_ws {l : List Char} (h : ∀ c ∈ l, isPyWs c = true) :
    stripPy l = [] := by
  unfold stripPy
  have h1 : l.dropWhile isPyWs = [] := by
    have h' : (l ++ ([] : List Char)).dropWhile isPyWs = ([] : List Char).dropWhile isPyWs :=
      dropWhile_app_all [] h
    simpa using h'
  simp [h1]

theorem stripPy_eq_self {l : List Char}
    (h1 : ∀ c, l.head? = some c → isPyWs c = false)
    (h2 : ∀ c, l.getLast? = some c → isPyWs c = false) : stripPy l = l := by
  unfold stripPy
  rw [dropWhile_head_false h1, dropWhile_head_false (by simpa using h2), List.reverse_reverse]

theorem dropWhile_suffix' (p : Char → Bool) (l : List Char) : l.dropWhile p <:+ l := by
  induction l with
  | nil => exact List.nil_suffix
  | cons c t ih =>
    by_cases h : p c
    · simpa [List.dropWhile_cons, h] using ih.trans (List.suffix_cons c t)
    · simp [List.dropWhile_cons, h]

theorem stripPy_infix (l : List Char) : stripPy l <:+: l := by
  unfold stripPy
  have h1 : (l.dropWhile isPyWs).reverse.dropWhile isPyWs <:+ (l.dropWhile isPyWs).reverse :=
    dropWhile_suffix' _ _
  have h2 : ((l.dropWhile isPyWs).reverse.dropWhile isPyWs).reverse <+: l.dropWhile isPyWs := by
    have h3 := List.reverse_prefix.mpr h1
    rwa [List.reverse_reverse] at h3
  exact h2.isInfix.trans (dropWhile_suffix' isPyWs l).isInfix

/-! ### What a successful fence match implies about the text, and when the
fence search therefore cannot fire. -/

theorem tryFence_some_brace {l g : List Char} (h : tryFence l = some g) :
    '{' ∈ l ∨ '[' ∈ l := by
  match l, h with
  | c1 :: c2 :: c3 :: r, h =>
    unfold tryFence at h
    simp only at h
    by_cases hb : c1 = btick ∧ c2 = btick ∧ c3 = btick
    case neg => rw [if_neg hb] at h; exact absurd h (by simp)
    rw [if_pos hb] at h
    set r2 := if ("json".toList).isPrefixOf r then r.drop 4 else r with hr2
    set r3 := r2.dropWhile isPyWs with hr3
    have hmem : ∀ z : Char, z ∈ r3 → z ∈ c1 :: c2 :: c3 :: r := by
      intro z hz
      have hz2 : z ∈ r2 := (List.dropWhile_sublist isPyWs).mem (hr3 ▸ hz)
      have hz3 : z ∈ r := by
        rw [hr2] at hz2
        split at hz2
        · exact List.drop_subset 4 r hz2
        · exact hz2
      exact List.mem_cons_of_mem _ (List.mem_cons_of_mem _ (List.mem_cons_of_mem _ hz3))
    by_cases h1 : r3.head? = some '{'
    · exact Or.inl (hmem '{' (List.mem_of_mem_head? (Option.mem_def.mpr h1)))
    · rw [if_neg h1] at h
      by_cases h2 : r3.head? = some '['
      · exact Or.inr (hmem '[' (List.mem_of_mem_head? (Option.mem_def.mpr h2)))
      · rw [if_neg h2] at h; exact absurd h (by simp)

theorem tryFence_some_ticks {l g : List Char} (h : tryFence l = some g) :
    [btick, btick, btick] <+: l := by
  match l, h with
  | c1 :: c2 :: c3 :: r, h =>
    unfold tryFence at h
    simp only at h
    by_cases hb : c1 = btick ∧ c2 = btick ∧ c3 = btick
    · obtain ⟨e1, e2, e3⟩ := hb
      subst e1; subst e2; subst e3
      exact ⟨r, rfl⟩
    · rw [if_neg hb] at h; exact absurd h (by simp)

theorem fenceSearch_none_of_no_brace {text : List Char}
    (hb : '{' ∉ text) (hk : '[' ∉ text) : fenceSearch text = none := by
  induction text with
  | nil => rfl
  | cons c t ih =>
    have ht : tryFence (c :: t) = none := by
      cases hf : tryFence (c :: t) with
      | none => rfl
      | some g => rcases tryFence_some_brace hf with h | h; exact (hb h).elim; exact (hk h).elim
    have ihb : '{' ∉ t := fun h => hb (List.mem_cons_of_mem c h)
    have ihk : '[' ∉ t := fun h => hk (List.mem_cons_of_mem c h)
    simp only [fenceSearch, ht, ih ihb ihk]

theorem fenceSearch_none_of_no_ticks {text : List Char}
    (h : ¬ [btick, btick, btick] <:+: text) : fenceSearch text = none := by
  induction text with
  | nil => rfl
  | cons c t ih =>
    have ht : tryFence (c :: t) = none := by
      cases hf : tryFence (c :: t) with
      | none => rfl
      | some g => exact (h (tryFence_some_ticks hf).isInfix).elim
    have ih' : ¬ [btick, btick, btick] <:+: t := fun hi =>
      h (List.infix_cons hi)
    simp only [fenceSearch, ht, ih ih']

theorem mem_of_mem_dropWhile {p : Char → Bool} {l : List Char} {c : Char}
    (h : c ∈ l.dropWhile p) : c ∈ l := (List.dropWhile_sublist p).mem h

/-- Localize an infix occurrence: if none of its characters occur in the left
part of a concatenation, a nonempty infix of the whole lies in the right part. -/
theorem infix_right_of_not_mem_left {x a b : List Char} (h : x <:+: a ++ b)
    (ha : ∀ c ∈ x, c ∉ a) (hne : x ≠ []) : x <:+: b := by
  induction a with
  | nil => simpa using h
  | cons y t ih =>
    rw [List.cons_append, List.infix_cons_iff] at h
    rcases h with hp | hi
    · exfalso
      match x, hne with
      | c :: x', _ =>
        rcases hp with ⟨s, hs⟩
        have hcy : c = y := by
          rw [List.cons_append] at hs
          exact ((List.cons.injEq _ _ _ _).mp hs).1
        exact ha c (List.mem_cons_self c x') (hcy ▸ List.mem_cons_self y t)
    · exact ih hi fun c hc hm => ha c hc (List.mem_cons_of_mem y hm)

/-! ### The candidate substring is always contiguous in the input, and the
pipeline degenerates when no brace or bracket occurs. -/

theorem strategy2_self_of_no_brace {s : List Char} (hb : '{' ∉ s) (hk : '[' ∉ s) :
    strategy2 s = s := by
  unfold strategy2
  rw [firstIdx_eq_none_iff.mpr hb, firstIdx_eq_none_iff.mpr hk]

theorem extract_no_candidate {s : List Char} (hne : s ≠ []) (hb : '{' ∉ s) (hk : '[' ∉ s) :
    extract s = tailParse (stripPy s) := by
  unfold extract candidate
  rw [if_neg hne, fenceSearch_none_of_no_brace hb hk, strategy2_self_of_no_brace hb hk]

theorem tryFence_some_infix {l g : List Char} (h : tryFence l = some g) : g <:+: l := by
  match l, h with
  | c1 :: c2 :: c3 :: r, h =>
    unfold tryFence at h
    simp only at h
    by_cases hb : c1 = btick ∧ c2 = btick ∧ c3 = btick
    case neg => rw [if_neg hb] at h; exact absurd h (by simp)
    rw [if_pos hb] at h
    set r2 := if ("json".toList).isPrefixOf r then r.drop 4 else r with hr2
    set r3 := r2.dropWhile isPyWs with hr3
    have hinf : ∀ q : Nat, r3.take (q + 1) <:+: c1 :: c2 :: c3 :: r := by
      intro q
      have h1 : r3.take (q + 1) <+: r3 := List.take_prefix (q + 1) r3
      have h2 : List.Sublist r3 r2 := hr3 ▸ List.dropWhile_sublist isPyWs
      have h3 : r3 <:+ r2 := by
        rw [hr3]; exact dropWhile_suffix' isPyWs r2
      have h4 : r2 <:+ r := by
        rw [hr2]
        split
        · exact List.drop_suffix 4 r
        · exact List.suffix_refl r
      have h5 : r <:+ c1 :: c2 :: c3 :: r :=
        ((List.suffix_cons c3 r).trans (List.suffix_cons c2 _)).trans (List.suffix_cons c1 _)
      exact h1.isInfix.trans (h3.isInfix.trans ((h4.trans h5).isInfix))
    by_cases h1 : r3.head? = some '{'
    · rw [if_pos h1] at h
      unfold closeScan at h
      rcases Option.map_eq_some'.mp h with ⟨q, _, hg⟩
      exact hg ▸ hinf q
    · rw [if_neg h1] at h
      by_cases h2 : r3.head? = some '['
      · rw [if_pos h2] at h
        unfold closeScan at h
        rcases Option.map_eq_some'.mp h with ⟨q, _, hg⟩
        exact hg ▸ hinf q
      · rw [if_neg h2] at h; exact absurd h (by simp)

theorem fenceSearch_some_infix {text g : List Char} (h : fenceSearch text = some g) :
    g <:+: text := by
  induction text with
  | nil => exact absurd h (by simp [fenceSearch])
  | cons c t ih =>
    unfold fenceSearch at h
    cases hf : tryFence (c :: t) with
    | some g' =>
      rw [hf] at h
      simp only [Option.some.injEq] at h
      exact h ▸ tryFence_some_infix hf
    | none =>
      rw [hf] at h
      exact List.infix_cons (ih h)

theorem strategy2_infix (text : List Char) : strategy2 text <:+: text := by
  have hslice : ∀ s oe, sliceTo text s oe <:+: text := by
    intro s oe
    unfold sliceTo
    match oe with
    | none => exact List.infix_refl text
    | some e =>
      show (if s < e then List.take (e + 1 - s) (List.drop s text) else text) <:+: text
      by_cases hse : s < e
      · rw [if_pos hse]
        exact ((List.take_prefix _ _).isInfix).trans (List.drop_suffix s text).isInfix
      · rw [if_neg hse]
  unfold strategy2
  split <;>
    first
      | exact List.infix_refl text
      | exact hslice _ _
      | (split <;> exact hslice _ _)

theorem candidate_infix (text : List Char) : candidate text <:+: text := by
  unfold candidate
  cases hf : fenceSearch text with
  | some g => exact fenceSearch_some_infix hf
  | none => exact strategy2_infix text

/-! ### Character-class facts used by the round-trip proof. -/

theorem char_ne_of_toNat_ne {c d : Char} (h : c.toNat ≠ d.toNat) : c ≠ d :=
  fun he => h (he ▸ rfl)

theorem isPyWs_iff_mem {c : Char} : isPyWs c = true ↔ c.toNat ∈ pyWsCodes := by
  unfold isPyWs
  exact List.elem_iff

theorem isPyWs_false_of_range {c : Char} (h1 : 33 ≤ c.toNat) (h2 : c.toNat ≤ 0x7e) :
    isPyWs c = false := by
  rw [← Bool.not_eq_true]
  intro h
  have := isPyWs_iff_mem.mp h
  simp [pyWsCodes] at this
  omega

theorem isJsonWs_false_of_range {c : Char} (h1 : 33 ≤ c.toNat) :
    isJsonWs c = false := by
  unfold isJsonWs
  have e1 : (c == ' ') = false := by
    rw [beq_eq_false_iff_ne]
    exact char_ne_of_toNat_ne (by rw [show (' ').toNat = 32 from rfl]; omega)
  have e2 : (c == '\t') = false := by
    rw [beq_eq_false_iff_ne]
    exact char_ne_of_toNat_ne (by rw [show ('\t').toNat = 9 from rfl]; omega)
  have e3 : (c == '\n') = false := by
    rw [beq_eq_false_iff_ne]
    exact char_ne_of_toNat_ne (by rw [show ('\n').toNat = 10 from rfl]; omega)
  have e4 : (c == '\r') = false := by
    rw [beq_eq_false_iff_ne]
    exact char_ne_of_toNat_ne (by rw [show ('\r').toNat = 13 from rfl]; omega)
  rw [e1, e2, e3, e4]
  rfl

/-! ### Decimal digits round-trip. -/

theorem toNat_ofNat_valid {n : Nat} (h : n < 0xd800 ∨ (0xe000 ≤ n ∧ n < 0x110000)) :
    (Char.ofNat n).toNat = n := by
  unfold Char.ofNat Char.toNat
  rw [dif_pos]
  · rfl
  · rcases h with h | ⟨h1, h2⟩
    · left; exact_mod_cast h
    · right; constructor <;> exact_mod_cast ‹_›

theorem toNat_digCh {n : Nat} (h : n < 10) : (Char.ofNat (48 + n)).toNat = 48 + n :=
  toNat_ofNat_valid (Or.inl (by omega))

theorem isDig_digCh {n : Nat} (h : n < 10) : isDig (Char.ofNat (48 + n)) = true := by
  unfold isDig
  rw [toNat_digCh h]
  simp
  omega

theorem digsVal_append_one (l : List Char) (c : Char) :
    digsVal (l ++ [c]) = 10 * digsVal l + (c.toNat - 48) := by
  unfold digsVal
  rw [List.foldl_append]
  rfl

theorem natDigitsAux_spec : ∀ f n, n < f →
    natDigitsAux f n ≠ [] ∧
    (∀ c ∈ natDigitsAux f n, isDig c = true) ∧
    digsVal (natDigitsAux f n) = n ∧
    (0 < n → (natDigitsAux f n).head? ≠ some '0') := by
  intro f
  induction f with
  | zero => intro n hn; omega
  | succ f ih =>
    intro n hn
    have he0 : natDigitsAux (f + 1) n =
        if n < 10 then [Char.ofNat (48 + n)]
        else natDigitsAux f (n / 10) ++ [Char.ofNat (48 + n % 10)] := rfl
    by_cases h10 : n < 10
    · have he : natDigitsAux (f + 1) n = [Char.ofNat (48 + n)] := by
        rw [he0, if_pos h10]
      refine ⟨by simp [he], ?_, ?_, ?_⟩
      · intro c hc
        rw [he] at hc
        rcases List.mem_singleton.mp hc with rfl
        exact isDig_digCh h10
      · rw [he]
        unfold digsVal
        simp [List.foldl, toNat_digCh h10]
      · intro hpos
        rw [he]
        simp only [List.head?_cons, ne_eq, Option.some.injEq]
        intro hz
        have := congrArg Char.toNat hz
        rw [toNat_digCh h10, show ('0').toNat = 48 from rfl] at this
        omega
    · have he : natDigitsAux (f + 1) n =
          natDigitsAux f (n / 10) ++ [Char.ofNat (48 + n % 10)] := by
        rw [he0, if_neg h10]
      have hrec : n / 10 < f := by omega
      obtain ⟨hne, hall, hval, hhead⟩ := ih (n / 10) hrec
      refine ⟨by simp [he], ?_, ?_, ?_⟩
      · intro c hc
        rw [he] at hc
        rcases List.mem_append.mp hc with hm | hm
        · exact hall c hm
        · rcases List.mem_singleton.mp hm with rfl
          exact isDig_digCh (by omega)
      · rw [he, digsVal_append_one, hval, toNat_digCh (by omega)]
        omega
      · intro _
        rw [he]
        match hh : natDigitsAux f (n / 10) with
        | [] => exact absurd hh hne
        | c :: t =>
          simp only [List.cons_append, List.head?_cons, ne_eq, Option.some.injEq]
          intro hz
          exact (hhead (by omega)) (by rw [hh, hz]; rfl)

theorem natToChars_spec (n : Nat) :
    natToChars n ≠ [] ∧
    (∀ c ∈ natToChars n, isDig c = true) ∧
    digsVal (natToChars n) = n ∧
    (0 < n → (natToChars n).head? ≠ some '0') :=
  natDigitsAux_spec (n + 1) n (Nat.lt_succ_self n)

theorem parseNatTok_rt {n : Nat} {rest : List Char} (hrest : numBnd rest) :
    parseNatTok (natToChars n ++ rest) = some (n, rest) := by
  obtain ⟨hne, hall, hval, hhead⟩ := natToChars_spec n
  have htake : (natToChars n ++ rest).takeWhile isDig = natToChars n :=
    takeWhile_app_stop hall (fun c hc => (hrest c hc).1)
  have hdrop : (natToChars n ++ rest).dropWhile isDig = rest :=
    dropWhile_app_stop hall (fun c hc => (hrest c hc).1)
  unfold parseNatTok
  simp only [htake, hdrop, hval]
  rw [if_neg hne]
  have hlz : ¬((natToChars n).head? = some '0' ∧ 1 < (natToChars n).length) := by
    rintro ⟨hz, hlen⟩
    by_cases hn : 0 < n
    · exact hhead hn hz
    · have hn0 : n = 0 := by omega
      subst hn0
      have : natToChars 0 = [Char.ofNat 48] := rfl
      rw [this] at hlen
      simp at hlen
  rw [if_neg hlz]
  match hr : rest with
  | [] => rfl
  | c :: t =>
    obtain ⟨_, h2, h3, h4, _, _⟩ := hrest c rfl
    show (if c = '.' ∨ c = 'e' ∨ c = 'E' then none else some (n, c :: t)) = some (n, c :: t)
    rw [if_neg (by tauto)]

theorem parseIntTok_rt {py : Bool} {n : Int} {rest : List Char} (hrest : numBnd rest) :
    parseIntTok py (dumpsInt n ++ rest) = some (n, rest) := by
  match n with
  | .ofNat m =>
    obtain ⟨hne, hall, _, _⟩ := natToChars_spec m
    obtain ⟨d, t, hdt⟩ : ∃ d t, natToChars m = d :: t := by
      match h : natToChars m with
      | [] => exact absurd h hne
      | d :: t => exact ⟨d, t, rfl⟩
    have hdig : isDig d = true := hall d (by rw [hdt]; simp)
    have hd48 : 48 ≤ d.toNat ∧ d.toNat ≤ 57 := by
      unfold isDig at hdig
      simpa using hdig
    unfold parseIntTok
    rw [show dumpsInt (Int.ofNat m) = natToChars m from rfl, hdt]
    have hh : ((d :: t) ++ rest).head? = some d := rfl
    rw [hh]
    have hdm : d ≠ '-' := char_ne_of_toNat_ne (by rw [show ('-').toNat = 45 from rfl]; omega)
    have hdp : d ≠ '+' := char_ne_of_toNat_ne (by rw [show ('+').toNat = 43 from rfl]; omega)
    rw [if_neg (by simpa using hdm)]
    rw [if_neg (by rintro ⟨h1, h2⟩; simp at h2; exact hdp h2)]
    rw [← hdt, parseNatTok_rt hrest]
    rfl
  | .negSucc m =>
    have he : dumpsInt (Int.negSucc m) ++ rest = '-' :: (natToChars (m + 1) ++ rest) := rfl
    rw [he]
    unfold parseIntTok
    simp only [List.head?_cons, List.tail_cons]
    rw [if_pos trivial]
    rw [parseNatTok_rt hrest]
    simp only [Option.map_some', Option.some.injEq, Prod.mk.injEq]
    constructor
    · rw [Int.negSucc_eq]
      push_cast
      ring
    · trivial

/-! ### String-literal round-trip: the parser inverts `escape`. -/

set_option maxRecDepth 4096

theorem char_valid_toNat (c : Char) :
    c.toNat < 0xd800 ∨ (0xe000 ≤ c.toNat ∧ c.toNat < 0x110000) := by
  rcases c with ⟨val, hvalid⟩
  rcases hvalid with h | ⟨h1, h2⟩
  · left; exact h
  · right; exact ⟨h1, h2⟩

theorem hexVal_hexDigCh {d : Nat} (h : d < 16) : hexVal (hexDigCh d) = some d := by
  unfold hexDigCh hexVal
  by_cases h10 : d < 10
  · rw [if_pos h10, toNat_ofNat_valid (Or.inl (by omega))]
    rw [if_pos ⟨by omega, by omega⟩]
    congr 1
    omega
  · rw [if_neg h10, toNat_ofNat_valid (Or.inl (by omega))]
    rw [if_neg (by omega), if_pos ⟨by omega, by omega⟩]
    congr 1
    omega

theorem parseUEsc_bmp {cv : Nat} (hlt : cv < 0x10000)
    (hs1 : ¬(0xd800 ≤ cv ∧ cv ≤ 0xdbff)) (hs2 : ¬(0xdc00 ≤ cv ∧ cv ≤ 0xdfff))
    (cont : List Char → Option (List Char × List Char)) (t : List Char) :
    parseUEsc cont (hex4 cv ++ t) =
      (match cont t with
       | some (s, r) => some (Char.ofNat cv :: s, r)
       | none => none) := by
  have e4 : hex4 cv ++ t = hexDigCh (cv / 4096 % 16) :: hexDigCh (cv / 256 % 16) ::
      hexDigCh (cv / 16 % 16) :: hexDigCh (cv % 16) :: t := rfl
  rw [e4]
  have hn : 4096 * (cv / 4096 % 16) + 256 * (cv / 256 % 16) + 16 * (cv / 16 % 16) + cv % 16 = cv := by
    omega
  simp only [parseUEsc,
    hexVal_hexDigCh (show cv / 4096 % 16 < 16 by omega),
    hexVal_hexDigCh (show cv / 256 % 16 < 16 by omega),
    hexVal_hexDigCh (show cv / 16 % 16 < 16 by omega),
    hexVal_hexDigCh (show cv % 16 < 16 by omega),
    hn]
  rw [if_neg hs1, if_neg hs2]

theorem parseUEsc_pair {hi lo : Nat} (hhi : 0xd800 ≤ hi ∧ hi ≤ 0xdbff)
    (hlo : 0xdc00 ≤ lo ∧ lo ≤ 0xdfff)
    (cont : List Char → Option (List Char × List Char)) (t : List Char) :
    parseUEsc cont (hex4 hi ++ ('\\' :: 'u' :: (hex4 lo ++ t))) =
      (match cont t with
       | some (s, r) => some (Char.ofNat (0x10000 + 1024 * (hi - 0xd800) + (lo - 0xdc00)) :: s, r)
       | none => none) := by
  have e4lo : hex4 lo ++ t = hexDigCh (lo / 4096 % 16) :: hexDigCh (lo / 256 % 16) ::
      hexDigCh (lo / 16 % 16) :: hexDigCh (lo % 16) :: t := rfl
  have e4hi : hex4 hi ++ ('\\' :: 'u' :: (hex4 lo ++ t)) =
      hexDigCh (hi / 4096 % 16) :: hexDigCh (hi / 256 % 16) ::
      hexDigCh (hi / 16 % 16) :: hexDigCh (hi % 16) :: '\\' :: 'u' :: (hex4 lo ++ t) := rfl
  rw [e4hi, e4lo]
  have hnhi : 4096 * (hi / 4096 % 16) + 256 * (hi / 256 % 16) + 16 * (hi / 16 % 16) + hi % 16 = hi := by
    omega
  have hnlo : 4096 * (lo / 4096 % 16) + 256 * (lo / 256 % 16) + 16 * (lo / 16 % 16) + lo % 16 = lo := by
    omega
  simp only [parseUEsc,
    hexVal_hexDigCh (show hi / 4096 % 16 < 16 by omega),
    hexVal_hexDigCh (show hi / 256 % 16 < 16 by omega),
    hexVal_hexDigCh (show hi / 16 % 16 < 16 by omega),
    hexVal_hexDigCh (show hi % 16 < 16 by omega),
    hexVal_hexDigCh (show lo / 4096 % 16 < 16 by omega),
    hexVal_hexDigCh (show lo / 256 % 16 < 16 by omega),
    hexVal_hexDigCh (show lo / 16 % 16 < 16 by omega),
    hexVal_hexDigCh (show lo % 16 < 16 by omega),
    hnhi, hnlo]
  rw [if_pos hhi]
  simp only [ite_true, and_self]
  rw [if_pos hlo]

theorem parseStrAux_u_step (py : Bool) (q : Char) (f : Nat) (hq : ¬ ('\\' : Char) = q)
    (r2 : List Char) :
    parseStrAux py q (f + 1) ('\\' :: 'u' :: r2) = parseUEsc (parseStrAux py q f) r2 := by
  simp only [parseStrAux]
  rw [if_neg hq]
  simp

theorem parseStrAux_rt : ∀ (s rest : List Char) (f : Nat), s.length < f →
    parseStrAux false '"' f (escape s ++ '"' :: rest) = some (s, rest) := by
  intro s
  induction s with
  | nil =>
    intro rest f hf
    cases f with
    | zero => omega
    | succ f' => rfl
  | cons c s' ih =>
    intro rest f hf
    cases f with
    | zero => omega
    | succ f' =>
      have hf' : s'.length < f' := by
        simp only [List.length_cons] at hf
        omega
      have ihT := ih rest f' hf'
      have hesc : escape (c :: s') ++ '"' :: rest =
          escChar c ++ (escape s' ++ '"' :: rest) := by
        show (escChar c ++ escape s') ++ '"' :: rest = _
        rw [List.append_assoc]
      rw [hesc]
      by_cases h1 : c = '"'
      · subst h1
        simp [escChar, parseStrAux, simpleEsc, ihT]
      · by_cases h2 : c = '\\'
        · subst h2
          simp [escChar, parseStrAux, simpleEsc, ihT]
        · by_cases h3 : c = '\n'
          · subst h3
            simp [escChar, parseStrAux, simpleEsc, ihT]
          · by_cases h4 : c = '\t'
            · subst h4
              simp [escChar, parseStrAux, simpleEsc, ihT]
            · by_cases h5 : c = '\r'
              · subst h5
                simp [escChar, parseStrAux, simpleEsc, ihT]
              · by_cases h6 : c = Char.ofNat 8
                · subst h6
                  simp [escChar, parseStrAux, simpleEsc, ihT]
                · by_cases h7 : c = Char.ofNat 12
                  · subst h7
                    simp [escChar, parseStrAux, simpleEsc, ihT]
                  · have he : escChar c =
                        if c.toNat < 0x20 ∨ 0x7e < c.toNat then uEsc c else [c] := by
                      unfold escChar
                      rw [if_neg h1, if_neg h2, if_neg h3, if_neg h4, if_neg h5, if_neg h6,
                        if_neg h7]
                    by_cases h8 : c.toNat < 0x20 ∨ 0x7e < c.toNat
                    · rw [he, if_pos h8]
                      have hval := char_valid_toNat c
                      by_cases h9 : c.toNat < 0x10000
                      · have heq : uEsc c ++ (escape s' ++ '"' :: rest) =
                            '\\' :: 'u' :: (hex4 c.toNat ++ (escape s' ++ '"' :: rest)) := by
                          rw [show uEsc c = '\\' :: 'u' :: hex4 c.toNat from by
                            unfold uEsc; rw [if_pos h9]]
                          simp only [List.cons_append]
                        rw [heq, parseStrAux_u_step false '"' f' (by decide) _]
                        rw [parseUEsc_bmp h9 (by omega) (by omega) _ _, ihT, Char.ofNat_toNat]
                      · have heq : uEsc c ++ (escape s' ++ '"' :: rest) =
                            '\\' :: 'u' :: (hex4 (0xd800 + (c.toNat - 0x10000) / 1024) ++
                              ('\\' :: 'u' :: (hex4 (0xdc00 + (c.toNat - 0x10000) % 1024) ++
                                (escape s' ++ '"' :: rest)))) := by
                          rw [show uEsc c = ('\\' :: 'u' :: hex4 (0xd800 + (c.toNat - 0x10000) / 1024)) ++
                              ('\\' :: 'u' :: hex4 (0xdc00 + (c.toNat - 0x10000) % 1024)) from by
                            unfold uEsc; rw [if_neg (by omega)]]
                          simp only [List.cons_append, List.append_assoc]
                        have hlt : c.toNat < 0x110000 := hval.elim (by omega) (fun h => h.2)
                        rw [heq, parseStrAux_u_step false '"' f' (by decide) _]
                        rw [parseUEsc_pair ⟨by omega, by omega⟩ ⟨by omega, by omega⟩ _ _, ihT]
                        have hcv : 0x10000 + 1024 * (0xd800 + (c.toNat - 0x10000) / 1024 - 0xd800) +
                            (0xdc00 + (c.toNat - 0x10000) % 1024 - 0xdc00) = c.toNat := by
                          omega
                        rw [hcv, Char.ofNat_toNat]
                    · rw [he, if_neg h8]
                      have hraw : rawOk false c = true := by
                        rw [show rawOk false c = decide (0x20 ≤ c.toNat) from rfl]
                        simp only [decide_eq_true_eq]
                        omega
                      simp only [List.cons_append, List.nil_append, parseStrAux]
                      rw [if_neg h1, if_neg h2, if_pos hraw]
                      rw [show ([] : List Char).append (escape s' ++ '"' :: rest) =
                        escape s' ++ '"' :: rest from rfl, ihT]

/-! ### Serialized values and parser boundaries. -/

theorem escape_length_ge (s : List Char) : s.length ≤ (escape s).length := by
  induction s with
  | nil => simp [escape]
  | cons c s' ih =>
    have h1 : 1 ≤ (escChar c).length := by
      unfold escChar
      split_ifs <;> simp [uEsc] <;> split_ifs <;> simp [hex4]
    simp only [escape, List.length_cons, List.length_append]
    omega

theorem numBnd_nil : numBnd [] := by
  intro c hc
  simp at hc

theorem numBnd_of_head {c : Char}
    (h : isDig c = false ∧ c ≠ '.' ∧ c ≠ 'e' ∧ c ≠ 'E' ∧ c ≠ '-' ∧ c ≠ '+')
    (t : List Char) : numBnd (c :: t) := by
  intro d hd
  injection hd with h'
  subst h'
  exact h

theorem numBnd_comma (t : List Char) : numBnd (',' :: t) :=
  numBnd_of_head ⟨by decide, by decide, by decide, by decide, by decide, by decide⟩ t

theorem numBnd_rbrack (t : List Char) : numBnd (']' :: t) :=
  numBnd_of_head ⟨by decide, by decide, by decide, by decide, by decide, by decide⟩ t

theorem numBnd_rbrace (t : List Char) : numBnd ('}' :: t) :=
  numBnd_of_head ⟨by decide, by decide, by decide, by decide, by decide, by decide⟩ t

/-- The first character of a serialized value: never whitespace, never a
closer. -/
theorem dumps_head (v : JVal) : ∃ c t, dumps v = c :: t ∧ isJsonWs c = false ∧
    isPyWs c = false ∧ c ≠ ']' ∧ c ≠ '}' := by
  cases v with
  | null => exact ⟨'n', ['u', 'l', 'l'], rfl, by decide, by decide, by decide, by decide⟩
  | bool b =>
    cases b with
    | true => exact ⟨'t', ['r', 'u', 'e'], rfl, by decide, by decide, by decide, by decide⟩
    | false => exact ⟨'f', ['a', 'l', 's', 'e'], rfl, by decide, by decide, by decide, by decide⟩
  | num n =>
    match n with
    | .ofNat m =>
      obtain ⟨hne, hall, _, _⟩ := natToChars_spec m
      obtain ⟨d, t, hdt⟩ : ∃ d t, natToChars m = d :: t := by
        match h : natToChars m with
        | [] => exact absurd h hne
        | d :: t => exact ⟨d, t, rfl⟩
      have hdig : isDig d = true := hall d (by rw [hdt]; simp)
      have hd48 : 48 ≤ d.toNat ∧ d.toNat ≤ 57 := by
        unfold isDig at hdig
        simpa using hdig
      refine ⟨d, t, ?_, ?_, ?_, ?_, ?_⟩
      · rw [show dumps (.num (Int.ofNat m)) = natToChars m from rfl, hdt]
      · exact isJsonWs_false_of_range (by omega)
      · exact isPyWs_false_of_range (by omega) (by omega)
      · exact char_ne_of_toNat_ne (by rw [show (']').toNat = 93 from rfl]; omega)
      · exact char_ne_of_toNat_ne (by rw [show ('}').toNat = 125 from rfl]; omega)
    | .negSucc m =>
      exact ⟨'-', natToChars (m + 1), rfl, by decide, by decide, by decide, by decide⟩
  | str s => exact ⟨'"', escape s ++ ['"'], rfl, by decide, by decide, by decide, by decide⟩
  | arr es => exact ⟨'[', dumpsElems es ++ [']'], rfl, by decide, by decide, by decide, by decide⟩
  | obj ms => exact ⟨'{', dumpsMembers ms ++ ['}'], rfl, by decide, by decide, by decide, by decide⟩

theorem dropWhile_ws_dumps {ws0 : List Char} (hws : ∀ c ∈ ws0, isJsonWs c = true)
    (v : JVal) (rest : List Char) :
    (ws0 ++ (dumps v ++ rest)).dropWhile isJsonWs = dumps v ++ rest := by
  obtain ⟨c, t, he, h1, _, _, _⟩ := dumps_head v
  apply dropWhile_app_stop hws
  intro d hd
  rw [he] at hd
  injection hd with h'
  subst h'
  exact h1

/-! ### One-step unfoldings of the value parser. -/

theorem dropWhile_cons_false {p : Char → Bool} {c : Char} (h : p c = false) (l : List Char) :
    (c :: l).dropWhile p = c :: l := by
  simp [List.dropWhile_cons, h]

theorem sz_pos (v : JVal) : 1 ≤ sz v := by
  cases v <;> simp [sz]

theorem parseVal_step_obj {input r : List Char} (py : Bool) (f : Nat)
    (hd : input.dropWhile isJsonWs = '{' :: r) :
    parseVal py (f + 1) input =
      objStep py (parseVal py f) (fun z => parseVal py f ('{' :: z)) r := by
  simp only [parseVal, hd]
  simp

theorem parseVal_step_arr {input r : List Char} (py : Bool) (f : Nat)
    (hd : input.dropWhile isJsonWs = '[' :: r) :
    parseVal py (f + 1) input =
      arrStep py (parseVal py f) (fun z => parseVal py f ('[' :: z)) r := by
  simp only [parseVal, hd]
  simp

theorem parseVal_step_str {input r : List Char} (py : Bool) (f : Nat)
    (hd : input.dropWhile isJsonWs = '"' :: r) :
    parseVal py (f + 1) input =
      (match parseStrAux py '"' (r.length + 1) r with
       | some (s, r2) => some (.str s, r2)
       | none => none) := by
  simp only [parseVal, hd]
  simp

theorem parseVal_step_other {input : List Char} {c : Char} {r : List Char} (py : Bool) (f : Nat)
    (hd : input.dropWhile isJsonWs = c :: r)
    (h1 : c ≠ '{') (h2 : c ≠ '[') (h3 : c ≠ '"') (hsq : ¬(py = true ∧ c = squote)) :
    parseVal py (f + 1) input =
      (match parseKw py (c :: r) with
       | some p => some p
       | none => (parseIntTok py (c :: r)).map (fun p => (.num p.1, p.2))) := by
  simp only [parseVal, hd]
  rw [if_neg h1, if_neg h2, if_neg h3, if_neg hsq]

theorem parseKw_false_eq (l : List Char) : parseKw false l =
    (if ("true".toList).isPrefixOf l then some (.bool true, l.drop 4)
     else if ("false".toList).isPrefixOf l then some (.bool false, l.drop 5)
     else if ("null".toList).isPrefixOf l then some (.null, l.drop 4)
     else none) := rfl

theorem parseKw_none_of_head {c : Char} (r : List Char)
    (h1 : c ≠ 't') (h2 : c ≠ 'f') (h3 : c ≠ 'n') : parseKw false (c :: r) = none := by
  have e1 : ("true".toList).isPrefixOf (c :: r) = false := by
    show (('t' == c) && _) = false
    rw [beq_eq_false_iff_ne.mpr (fun he => h1 he.symm)]
    rfl
  have e2 : ("false".toList).isPrefixOf (c :: r) = false := by
    show (('f' == c) && _) = false
    rw [beq_eq_false_iff_ne.mpr (fun he => h2 he.symm)]
    rfl
  have e3 : ("null".toList).isPrefixOf (c :: r) = false := by
    show (('n' == c) && _) = false
    rw [beq_eq_false_iff_ne.mpr (fun he => h3 he.symm)]
    rfl
  rw [parseKw_false_eq]
  rw [if_neg (by rw [e1]; exact Bool.false_ne_true), if_neg (by rw [e2]; exact Bool.false_ne_true),
    if_neg (by rw [e3]; exact Bool.false_ne_true)]

end PDT

namespace PDT

theorem parseVal_rt : ∀ f : Nat,
    (∀ v ws0 rest, (∀ c ∈ ws0, isJsonWs c = true) → sz v ≤ f → numBnd rest →
      parseVal false f (ws0 ++ (dumps v ++ rest)) = some (v, rest)) ∧
    (∀ es ws1 rest, (∀ c ∈ ws1, isJsonWs c = true) → szElems es + 1 ≤ f →
      parseVal false f ('[' :: (ws1 ++ (dumpsElems es ++ ']' :: rest))) = some (.arr es, rest)) ∧
    (∀ ms ws1 rest, (∀ c ∈ ws1, isJsonWs c = true) → szMembers ms + 1 ≤ f →
      parseVal false f ('{' :: (ws1 ++ (dumpsMembers ms ++ '}' :: rest))) = some (.obj ms, rest)) := by
  intro f
  induction f using Nat.strong_induction_on with
  | _ f ih =>
  have ihv : ∀ g, g < f → ∀ v rest, sz v ≤ g → numBnd rest →
      parseVal false g (dumps v ++ rest) = some (v, rest) := by
    intro g hg v rest h1 h2
    have h3 := (ih g hg).1 v [] rest (by simp) h1 h2
    simpa using h3
  have ihv' : ∀ g, g < f → ∀ v ws0 rest, (∀ c ∈ ws0, isJsonWs c = true) → sz v ≤ g →
      numBnd rest → parseVal false g (ws0 ++ (dumps v ++ rest)) = some (v, rest) :=
    fun g hg => (ih g hg).1
  have ihe : ∀ g, g < f → ∀ es ws1 rest, (∀ c ∈ ws1, isJsonWs c = true) → szElems es + 1 ≤ g →
      parseVal false g ('[' :: (ws1 ++ (dumpsElems es ++ ']' :: rest))) = some (.arr es, rest) :=
    fun g hg => (ih g hg).2.1
  have ihm : ∀ g, g < f → ∀ ms ws1 rest, (∀ c ∈ ws1, isJsonWs c = true) → szMembers ms + 1 ≤ g →
      parseVal false g ('{' :: (ws1 ++ (dumpsMembers ms ++ '}' :: rest))) = some (.obj ms, rest) :=
    fun g hg => (ih g hg).2.2
  have hRTe : ∀ es ws1 rest, (∀ c ∈ ws1, isJsonWs c = true) → szElems es + 1 ≤ f →
      parseVal false f ('[' :: (ws1 ++ (dumpsElems es ++ ']' :: rest))) = some (.arr es, rest) := by
    intro es ws1 rest hws hsz
    cases f with
    | zero => omega
    | succ f' =>
      rw [parseVal_step_arr false f' (dropWhile_cons_false (by decide) _)]
      cases es with
      | nil =>
        rw [show ws1 ++ (dumpsElems ([] : List JVal) ++ ']' :: rest) = ws1 ++ (']' :: rest)
          from rfl]
        unfold arrStep
        rw [dropWhile_app_stop hws (fun c hc => by injection hc with h'; subst h'; decide)]
        simp
      | cons v vs =>
        obtain ⟨c0, t0, hvh, hwsc, _, hne1, hne2⟩ := dumps_head v
        have hf' : f' < f' + 1 := Nat.lt_succ_self f'
        cases vs with
        | nil =>
          rw [show ws1 ++ (dumpsElems [v] ++ ']' :: rest) = ws1 ++ (dumps v ++ ']' :: rest)
            from rfl]
          unfold arrStep
          rw [dropWhile_ws_dumps hws v _]
          have hh : (dumps v ++ ']' :: rest).head? = some c0 := by rw [hvh]; rfl
          rw [if_neg (by rw [hh]; intro hcon; injection hcon with h'; exact hne1 h')]
          have hsz1 : sz v ≤ f' := by
            simp only [szElems] at hsz
            omega
          have hel := ihv f' hf' v (']' :: rest) hsz1 (numBnd_rbrack rest)
          have hd1 : List.dropWhile isJsonWs (']' :: rest) = ']' :: rest :=
            dropWhile_cons_false (by decide) rest
          simp [hel, hd1]
        | cons v2 vs' =>
          have hde : dumpsElems (v :: v2 :: vs') = dumps v ++ ',' :: ' ' :: dumpsElems (v2 :: vs') := by
            rfl
          rw [hde]
          unfold arrStep
          rw [show ws1 ++ ((dumps v ++ ',' :: ' ' :: dumpsElems (v2 :: vs')) ++ ']' :: rest) =
            ws1 ++ (dumps v ++ (',' :: ' ' :: (dumpsElems (v2 :: vs') ++ ']' :: rest))) from by
              simp [List.append_assoc]]
          rw [dropWhile_ws_dumps hws v _]
          have hsz1 : sz v ≤ f' := by
            simp only [szElems] at hsz
            have := sz_pos v2
            omega
          have hsz2 : szElems (v2 :: vs') + 1 ≤ f' := by
            simp only [szElems] at hsz ⊢
            have := sz_pos v
            omega
          have hel := ihv f' hf' v (',' :: ' ' :: (dumpsElems (v2 :: vs') ++ ']' :: rest)) hsz1
            (numBnd_comma _)
          have het := ihe f' hf' (v2 :: vs') [' '] rest
            (by intro c hc; simp at hc; subst hc; decide) hsz2
          simp only [List.cons_append, List.nil_append] at het
          have hd2 : List.dropWhile isJsonWs
              (',' :: ' ' :: (dumpsElems (v2 :: vs') ++ ']' :: rest)) =
              ',' :: ' ' :: (dumpsElems (v2 :: vs') ++ ']' :: rest) :=
            dropWhile_cons_false (by decide) _
          have hh2 : (dumps v).head? = some c0 := by rw [hvh]; rfl
          simp [hel, het, hd2, hh2, hne1]
  have hRTm : ∀ ms ws1 rest, (∀ c ∈ ws1, isJsonWs c = true) → szMembers ms + 1 ≤ f →
      parseVal false f ('{' :: (ws1 ++ (dumpsMembers ms ++ '}' :: rest))) = some (.obj ms, rest) := by
    intro ms ws1 rest hws hsz
    cases f with
    | zero => omega
    | succ f' =>
      rw [parseVal_step_obj false f' (dropWhile_cons_false (by decide) _)]
      have hf' : f' < f' + 1 := Nat.lt_succ_self f'
      cases ms with
      | nil =>
        rw [show ws1 ++ (dumpsMembers ([] : List (List Char × JVal)) ++ '}' :: rest) =
          ws1 ++ ('}' :: rest) from rfl]
        unfold objStep
        rw [dropWhile_app_stop hws (fun c hc => by injection hc with h'; subst h'; decide)]
        simp
      | cons kv mtail =>
        obtain ⟨k, v⟩ := kv
        cases mtail with
        | nil =>
          have hsh : ws1 ++ (dumpsMembers [(k, v)] ++ '}' :: rest) =
              ws1 ++ ('"' :: (escape k ++ ('"' :: ':' :: ' ' :: (dumps v ++ '}' :: rest)))) := by
            rw [show dumpsMembers [(k, v)] = '"' :: escape k ++ '"' :: ':' :: ' ' :: dumps v
              from rfl]
            simp [List.append_assoc]
          rw [hsh]
          unfold objStep
          rw [dropWhile_app_stop hws (fun c hc => by injection hc with h'; subst h'; decide)]
          have hkey : parseKeyStr false
              ('"' :: (escape k ++ ('"' :: ':' :: ' ' :: (dumps v ++ '}' :: rest)))) =
              some (k, ':' :: ' ' :: (dumps v ++ '}' :: rest)) := by
            simp only [parseKeyStr, ite_true]
            have hb : k.length <
                (escape k ++ ('"' :: ':' :: ' ' :: (dumps v ++ '}' :: rest))).length + 1 := by
              have := escape_length_ge k
              simp only [List.length_append, List.length_cons]
              omega
            rw [parseStrAux_rt k (':' :: ' ' :: (dumps v ++ '}' :: rest)) _ hb]
          have hsz1 : sz v ≤ f' := by
            simp only [szMembers] at hsz
            omega
          have hel := ihv' f' hf' v [' '] ('}' :: rest) (by intro c hc; simp at hc; subst hc; decide)
            hsz1 (numBnd_rbrace rest)
          simp only [List.cons_append, List.nil_append] at hel
          have hd1 : List.dropWhile isJsonWs ('}' :: rest) = '}' :: rest :=
            dropWhile_cons_false (by decide) rest
          dsimp only
          rw [if_neg (show ¬('"' :: (escape k ++ ('"' :: ':' :: ' ' ::
            (dumps v ++ '}' :: rest)))).head? = some '}' by simp)]
          have hd0 : List.dropWhile isJsonWs (':' :: ' ' :: (dumps v ++ '}' :: rest)) =
              ':' :: ' ' :: (dumps v ++ '}' :: rest) :=
            dropWhile_cons_false (by decide) _
          rw [hkey]
          simp [hel, hd1, hd0]
        | cons kv2 ms' =>
          have hsh : ws1 ++ (dumpsMembers ((k, v) :: kv2 :: ms') ++ '}' :: rest) =
              ws1 ++ ('"' :: (escape k ++ ('"' :: ':' :: ' ' ::
                (dumps v ++ (',' :: ' ' :: (dumpsMembers (kv2 :: ms') ++ '}' :: rest)))))) := by
            rw [show dumpsMembers ((k, v) :: kv2 :: ms') =
              ('"' :: escape k ++ '"' :: ':' :: ' ' :: dumps v) ++
                ',' :: ' ' :: dumpsMembers (kv2 :: ms') from rfl]
            simp [List.append_assoc]
          rw [hsh]
          unfold objStep
          rw [dropWhile_app_stop hws (fun c hc => by injection hc with h'; subst h'; decide)]
          have hkey : parseKeyStr false
              ('"' :: (escape k ++ ('"' :: ':' :: ' ' ::
                (dumps v ++ (',' :: ' ' :: (dumpsMembers (kv2 :: ms') ++ '}' :: rest)))))) =
              some (k, ':' :: ' ' ::
                (dumps v ++ (',' :: ' ' :: (dumpsMembers (kv2 :: ms') ++ '}' :: rest)))) := by
            simp only [parseKeyStr, ite_true]
            have hb : k.length <
                (escape k ++ ('"' :: ':' :: ' ' ::
                  (dumps v ++ (',' :: ' ' :: (dumpsMembers (kv2 :: ms') ++ '}' :: rest))))).length
                  + 1 := by
              have := escape_length_ge k
              simp only [List.length_append, List.length_cons]
              omega
            rw [parseStrAux_rt k
              (':' :: ' ' :: (dumps v ++ (',' :: ' ' :: (dumpsMembers (kv2 :: ms') ++ '}' :: rest))))
              _ hb]
          have hsz1 : sz v ≤ f' := by
            simp only [szMembers] at hsz
            have h2 := sz_pos kv2.2
            omega
          have hsz2 : szMembers (kv2 :: ms') + 1 ≤ f' := by
            rcases kv2 with ⟨k2, v2⟩
            simp only [szMembers] at hsz ⊢
            have := sz_pos v
            omega
          have hel := ihv' f' hf' v [' ']
            (',' :: ' ' :: (dumpsMembers (kv2 :: ms') ++ '}' :: rest))
            (by intro c hc; simp at hc; subst hc; decide) hsz1 (numBnd_comma _)
          simp only [List.cons_append, List.nil_append] at hel
          have het := ihm f' hf' (kv2 :: ms') [' '] rest
            (by intro c hc; simp at hc; subst hc; decide) hsz2
          simp only [List.cons_append, List.nil_append] at het
          have hd2 : List.dropWhile isJsonWs
              (',' :: ' ' :: (dumpsMembers (kv2 :: ms') ++ '}' :: rest)) =
              ',' :: ' ' :: (dumpsMembers (kv2 :: ms') ++ '}' :: rest) :=
            dropWhile_cons_false (by decide) _
          dsimp only
          rw [if_neg (show ¬('"' :: (escape k ++ ('"' :: ':' :: ' ' ::
            (dumps v ++ (',' :: ' ' :: (dumpsMembers (kv2 :: ms') ++ '}' :: rest)))))).head? =
            some '}' by simp)]
          have hd0 : List.dropWhile isJsonWs (':' :: ' ' ::
              (dumps v ++ (',' :: ' ' :: (dumpsMembers (kv2 :: ms') ++ '}' :: rest)))) =
              ':' :: ' ' :: (dumps v ++ (',' :: ' ' :: (dumpsMembers (kv2 :: ms') ++ '}' :: rest))) :=
            dropWhile_cons_false (by decide) _
          rw [hkey]
          simp [hel, het, hd2, hd0]
  have hRTv : ∀ v ws0 rest, (∀ c ∈ ws0, isJsonWs c = true) → sz v ≤ f → numBnd rest →
      parseVal false f (ws0 ++ (dumps v ++ rest)) = some (v, rest) := by
    intro v ws0 rest hws hsz hbnd
    cases f with
    | zero => have := sz_pos v; omega
    | succ f' =>
      have hdrop := dropWhile_ws_dumps hws v rest
      cases v with
      | null =>
        have hd : (ws0 ++ (dumps .null ++ rest)).dropWhile isJsonWs =
            'n' :: ('u' :: 'l' :: 'l' :: rest) := by
          rw [hdrop]
          simp [dumps]
        rw [parseVal_step_other false f' hd (by decide) (by decide) (by decide) (by simp)]
        rw [show parseKw false ('n' :: ('u' :: 'l' :: 'l' :: rest)) = some (.null, rest) from by
          simp [parseKw]]
      | bool b =>
        cases b with
        | true =>
          have hd : (ws0 ++ (dumps (.bool true) ++ rest)).dropWhile isJsonWs =
              't' :: ('r' :: 'u' :: 'e' :: rest) := by
            rw [hdrop]
            simp [dumps]
          rw [parseVal_step_other false f' hd (by decide) (by decide) (by decide) (by simp)]
          rw [show parseKw false ('t' :: ('r' :: 'u' :: 'e' :: rest)) = some (.bool true, rest) from by
            simp [parseKw]]
        | false =>
          have hd : (ws0 ++ (dumps (.bool false) ++ rest)).dropWhile isJsonWs =
              'f' :: ('a' :: 'l' :: 's' :: 'e' :: rest) := by
            rw [hdrop]
            simp [dumps]
          rw [parseVal_step_other false f' hd (by decide) (by decide) (by decide) (by simp)]
          rw [show parseKw false ('f' :: ('a' :: 'l' :: 's' :: 'e' :: rest)) = some (.bool false, rest) from by
            simp [parseKw]]
      | num n =>
        match n with
        | .ofNat m =>
          obtain ⟨hnnil, hall, _, _⟩ := natToChars_spec m
          obtain ⟨d, t, hdt⟩ : ∃ d t, natToChars m = d :: t := by
            match h : natToChars m with
            | [] => exact absurd h hnnil
            | d :: t => exact ⟨d, t, rfl⟩
          have hdig : isDig d = true := hall d (by rw [hdt]; simp)
          have hd48 : 48 ≤ d.toNat ∧ d.toNat ≤ 57 := by
            unfold isDig at hdig
            simpa using hdig
          have hd : (ws0 ++ (dumps (.num (Int.ofNat m)) ++ rest)).dropWhile isJsonWs =
              d :: (t ++ rest) := by
            rw [hdrop, show dumps (.num (Int.ofNat m)) = natToChars m from by
              simp [dumps, dumpsInt], hdt]
            rfl
          rw [parseVal_step_other false f' hd
            (char_ne_of_toNat_ne (by rw [show ('{').toNat = 123 from rfl]; omega))
            (char_ne_of_toNat_ne (by rw [show ('[').toNat = 91 from rfl]; omega))
            (char_ne_of_toNat_ne (by rw [show ('"').toNat = 34 from rfl]; omega))
            (by simp)]
          rw [parseKw_none_of_head _
            (char_ne_of_toNat_ne (by rw [show ('t').toNat = 116 from rfl]; omega))
            (char_ne_of_toNat_ne (by rw [show ('f').toNat = 102 from rfl]; omega))
            (char_ne_of_toNat_ne (by rw [show ('n').toNat = 110 from rfl]; omega))]
          have harg : d :: (t ++ rest) = dumpsInt (Int.ofNat m) ++ rest := by
            rw [show dumpsInt (Int.ofNat m) = natToChars m from rfl, hdt]
            rfl
          rw [harg, parseIntTok_rt hbnd]
          rfl
        | .negSucc m =>
          have hd : (ws0 ++ (dumps (.num (Int.negSucc m)) ++ rest)).dropWhile isJsonWs =
              '-' :: (natToChars (m + 1) ++ rest) := by
            rw [hdrop, show dumps (.num (Int.negSucc m)) = '-' :: natToChars (m + 1) from by
              simp [dumps, dumpsInt]]
            rfl
          rw [parseVal_step_other false f' hd (by decide) (by decide) (by decide) (by simp)]
          rw [parseKw_none_of_head _ (by decide) (by decide) (by decide)]
          have harg : ('-' : Char) :: (natToChars (m + 1) ++ rest) =
              dumpsInt (Int.negSucc m) ++ rest := rfl
          rw [harg, parseIntTok_rt hbnd]
          rfl
      | str s =>
        have hd : (ws0 ++ (dumps (.str s) ++ rest)).dropWhile isJsonWs =
            '"' :: (escape s ++ ('"' :: rest)) := by
          rw [hdrop]
          simp [dumps, List.append_assoc]
        rw [parseVal_step_str false f' hd]
        have hb : s.length < (escape s ++ ('"' :: rest)).length + 1 := by
          have := escape_length_ge s
          simp only [List.length_append, List.length_cons]
          omega
        rw [parseStrAux_rt s rest _ hb]
      | arr es =>
        have hd : (ws0 ++ (dumps (.arr es) ++ rest)).dropWhile isJsonWs =
            '[' :: (dumpsElems es ++ ']' :: rest) := by
          rw [hdrop]
          simp [dumps, List.append_assoc]
        rw [parseVal_step_arr false f' hd]
        have hsz1 : szElems es + 1 ≤ f' + 1 := by
          simp only [sz] at hsz
          exact hsz
        have h2 := hRTe es [] rest (by simp) hsz1
        rw [parseVal_step_arr false f' (dropWhile_cons_false (by decide) _)] at h2
        simpa using h2
      | obj ms =>
        have hd : (ws0 ++ (dumps (.obj ms) ++ rest)).dropWhile isJsonWs =
            '{' :: (dumpsMembers ms ++ '}' :: rest) := by
          rw [hdrop]
          simp [dumps, List.append_assoc]
        rw [parseVal_step_obj false f' hd]
        have hsz1 : szMembers ms + 1 ≤ f' + 1 := by
          simp only [sz] at hsz
          exact hsz
        have h2 := hRTm ms [] rest (by simp) hsz1
        rw [parseVal_step_obj false f' (dropWhile_cons_false (by decide) _)] at h2
        simpa using h2
  exact ⟨hRTv, hRTe, hRTm⟩

end PDT
namespace PDT

theorem szBound : ∀ n : Nat,
    (∀ v : JVal, sz v ≤ n → sz v ≤ (dumps v).length) ∧
    (∀ es : List JVal, szElems es + 1 ≤ n → szElems es ≤ (dumpsElems es).length + 1) ∧
    (∀ ms : List (List Char × JVal), szMembers ms + 1 ≤ n →
      szMembers ms ≤ (dumpsMembers ms).length + 1) := by
  intro n
  induction n using Nat.strong_induction_on with
  | _ n ih =>
  have ihv : ∀ m, m < n → ∀ v : JVal, sz v ≤ m → sz v ≤ (dumps v).length :=
    fun m hm => (ih m hm).1
  have ihe : ∀ m, m < n → ∀ es : List JVal, szElems es + 1 ≤ m →
      szElems es ≤ (dumpsElems es).length + 1 := fun m hm => (ih m hm).2.1
  have ihm : ∀ m, m < n → ∀ ms : List (List Char × JVal), szMembers ms + 1 ≤ m →
      szMembers ms ≤ (dumpsMembers ms).length + 1 := fun m hm => (ih m hm).2.2
  have hE : ∀ es : List JVal, szElems es + 1 ≤ n →
      szElems es ≤ (dumpsElems es).length + 1 := by
    intro es hn
    cases es with
    | nil => simp [szElems, dumpsElems]
    | cons v vs =>
      cases vs with
      | nil =>
        simp only [szElems] at hn
        have h1 : sz v ≤ (dumps v).length := ihv (sz v) (by omega) v le_rfl
        simp only [szElems, dumpsElems]
        omega
      | cons w ws =>
        simp only [szElems] at hn
        have hsw := sz_pos w
        have hsv := sz_pos v
        have h1 : sz v ≤ (dumps v).length := ihv (sz v) (by omega) v le_rfl
        have h2 : szElems (w :: ws) ≤ (dumpsElems (w :: ws)).length + 1 :=
          ihe (szElems (w :: ws) + 1) (by simp only [szElems]; omega) _ le_rfl
        simp only [szElems] at h2 ⊢
        simp only [dumpsElems, List.length_append, List.length_cons]
        omega
  have hM : ∀ ms : List (List Char × JVal), szMembers ms + 1 ≤ n →
      szMembers ms ≤ (dumpsMembers ms).length + 1 := by
    intro ms hn
    cases ms with
    | nil => simp [szMembers, dumpsMembers]
    | cons m ms' =>
      obtain ⟨k, v⟩ := m
      cases ms' with
      | nil =>
        simp only [szMembers] at hn
        have h1 : sz v ≤ (dumps v).length := ihv (sz v) (by omega) v le_rfl
        simp only [szMembers, dumpsMembers, List.length_append, List.length_cons]
        omega
      | cons m2 ms'' =>
        obtain ⟨k2, v2⟩ := m2
        simp only [szMembers] at hn
        have hsw := sz_pos v2
        have hsv := sz_pos v
        have h1 : sz v ≤ (dumps v).length := ihv (sz v) (by omega) v le_rfl
        have h2 : szMembers ((k2, v2) :: ms'') ≤ (dumpsMembers ((k2, v2) :: ms'')).length + 1 :=
          ihm (szMembers ((k2, v2) :: ms'') + 1) (by simp only [szMembers]; omega) _ le_rfl
        simp only [szMembers] at h2 ⊢
        simp only [dumpsMembers, List.length_append, List.length_cons]
        omega
  have hV : ∀ v : JVal, sz v ≤ n → sz v ≤ (dumps v).length := by
    intro v hn
    cases v with
    | null => simp [sz, dumps]
    | bool b => cases b <;> simp [sz, dumps]
    | num m =>
      match m with
      | .ofNat k =>
        obtain ⟨hne, _, _, _⟩ := natToChars_spec k
        simp only [sz, dumps, dumpsInt]
        exact List.length_pos.mpr hne
      | .negSucc k =>
        simp [sz, dumps, dumpsInt]
    | str s =>
      simp [sz, dumps]
    | arr es =>
      simp only [sz] at hn
      have h1 := hE es hn
      simp only [sz, dumps, List.length_append, List.length_cons]
      omega
    | obj ms =>
      simp only [sz] at hn
      have h1 := hM ms hn
      simp only [sz, dumps, List.length_append, List.length_cons]
      omega
  exact ⟨hV, hE, hM⟩

theorem sz_le_dumps (v : JVal) : sz v ≤ (dumps v).length :=
  (szBound (sz v)).1 v le_rfl

theorem jsonLoads_dumps (v : JVal) : jsonLoads (dumps v) = some v := by
  have h := (parseVal_rt ((dumps v).length + 1)).1 v [] []
    (by simp) (by have := sz_le_dumps v; omega) numBnd_nil
  simp only [List.nil_append, List.append_nil] at h
  unfold jsonLoads runParse
  rw [h]
  simp

end PDT
namespace PDT

theorem firstIdx_cons_ne {c a : Char} {r : List Char} {k : Nat} (hne : a ≠ c)
    (h : firstIdx c (a :: r) = some k) : 0 < k := by
  simp only [firstIdx, if_neg hne, Option.map_eq_some'] at h
  obtain ⟨j, _, hj⟩ := h
  omega

theorem sliceTo_full {text : List Char} {M : Nat} (h : text.length = M + 1) :
    sliceTo text 0 (some M) = text := by
  simp only [sliceTo]
  by_cases h0 : 0 < M
  · rw [if_pos h0]
    simp only [List.drop_zero, Nat.sub_zero]
    exact List.take_of_length_le (by omega)
  · rw [if_neg h0]

theorem strategy2_dumps_obj (ms : List (List Char × JVal)) :
    strategy2 (dumps (.obj ms)) = dumps (.obj ms) := by
  have hd : dumps (.obj ms) = '{' :: (dumpsMembers ms ++ ['}']) := by simp [dumps]
  have hl : lastIdx '}' (dumps (.obj ms)) = some ((dumpsMembers ms).length + 1) := by
    rw [hd, show '{' :: (dumpsMembers ms ++ ['}']) = ('{' :: dumpsMembers ms) ++ ['}'] from by simp]
    simpa using lastIdx_concat_self '}' ('{' :: dumpsMembers ms)
  have hf : firstIdx '{' (dumps (.obj ms)) = some 0 := by
    rw [hd]
    exact firstIdx_cons_self _ _
  have hlen : (dumps (.obj ms)).length = (dumpsMembers ms).length + 2 := by simp [hd]
  cases hb : firstIdx '[' (dumps (.obj ms)) with
  | none =>
    simp only [strategy2, hf, hb, hl]
    exact sliceTo_full (by omega)
  | some k =>
    have hk : 0 < k := firstIdx_cons_ne (by decide) (hd ▸ hb)
    simp only [strategy2, hf, hb, hl, if_pos hk]
    exact sliceTo_full (by omega)

theorem strategy2_dumps_arr (es : List JVal) :
    strategy2 (dumps (.arr es)) = dumps (.arr es) := by
  have hd : dumps (.arr es) = '[' :: (dumpsElems es ++ [']']) := by simp [dumps]
  have hl : lastIdx ']' (dumps (.arr es)) = some ((dumpsElems es).length + 1) := by
    rw [hd, show '[' :: (dumpsElems es ++ [']']) = ('[' :: dumpsElems es) ++ [']'] from by simp]
    simpa using lastIdx_concat_self ']' ('[' :: dumpsElems es)
  have hf : firstIdx '[' (dumps (.arr es)) = some 0 := by
    rw [hd]
    exact firstIdx_cons_self _ _
  have hlen : (dumps (.arr es)).length = (dumpsElems es).length + 2 := by simp [hd]
  cases hb : firstIdx '{' (dumps (.arr es)) with
  | none =>
    simp only [strategy2, hf, hb, hl]
    exact sliceTo_full (by omega)
  | some k =>
    have hk : 0 < k := firstIdx_cons_ne (by decide) (hd ▸ hb)
    simp only [strategy2, hf, hb, hl, if_neg (by omega : ¬ k < 0)]
    exact sliceTo_full (by omega)

theorem tailParse_dumps (v : JVal) : tailParse (dumps v) = .ok v := by
  simp only [tailParse, jsonLoads_dumps]

theorem extract_dumps {v : JVal}
    (hc : strategy2 (dumps v) = dumps v)
    (hlast : ∀ c, (dumps v).getLast? = some c → isPyWs c = false)
    (ht : ¬ [btick, btick, btick] <:+: dumps v) : extract (dumps v) = .ok v := by
  obtain ⟨c, t, he, _, hpy, _, _⟩ := dumps_head v
  have hne : dumps v ≠ [] := by rw [he]; simp
  have hstrip : stripPy (dumps v) = dumps v := by
    refine stripPy_eq_self (fun c' hc' => ?_) hlast
    rw [he] at hc'
    simp only [List.head?_cons, Option.some_inj] at hc'
    exact hc' ▸ hpy
  unfold extract candidate
  rw [if_neg hne, fenceSearch_none_of_no_ticks ht, hc, hstrip]
  exact tailParse_dumps v

theorem extract_dumps_obj (ms : List (List Char × JVal))
    (ht : ¬ [btick, btick, btick] <:+: dumps (.obj ms)) :
    extract (dumps (.obj ms)) = .ok (.obj ms) := by
  refine extract_dumps (strategy2_dumps_obj ms) (fun c hc => ?_) ht
  have hd : dumps (.obj ms) = ('{' :: dumpsMembers ms) ++ ['}'] := by simp [dumps]
  rw [hd, List.getLast?_concat] at hc
  simp only [Option.some_inj] at hc
  rw [← hc]
  decide

theorem extract_dumps_arr (es : List JVal)
    (ht : ¬ [btick, btick, btick] <:+: dumps (.arr es)) :
    extract (dumps (.arr es)) = .ok (.arr es) := by
  refine extract_dumps (strategy2_dumps_arr es) (fun c hc => ?_) ht
  have hd : dumps (.arr es) = ('[' :: dumpsElems es) ++ [']'] := by simp [dumps]
  rw [hd, List.getLast?_concat] at hc
  simp only [Option.some_inj] at hc
  rw [← hc]
  decide

end PDT
namespace PDT

theorem tailParse_ne_empty (s : List Char) : tailParse s ≠ .error .empty := by
  unfold tailParse
  cases hj : jsonLoads s with
  | some w => exact fun h => Except.noConfusion h
  | none =>
    cases hp : pyLiteralEval s with
    | some w => exact fun h => Except.noConfusion h
    | none =>
      intro h
      injection h with h1
      exact PyErr.noConfusion h1

theorem infix_left_of_not_mem_right {x a b : List Char} (h : x <:+: a ++ b)
    (hb : ∀ c ∈ x, c ∉ b) (hne : x ≠ []) : x <:+: a := by
  have h' : x.reverse <:+: b.reverse ++ a.reverse := by
    rw [← List.reverse_append]
    exact List.reverse_infix.mpr h
  have h2 : x.reverse <:+: a.reverse :=
    infix_right_of_not_mem_left h'
      (fun c hc hcb => hb c (List.mem_reverse.mp hc) (List.mem_reverse.mp hcb))
      (by simpa using hne)
  exact List.reverse_infix.mp (by simpa using h2)

theorem sliceTo_mid {pre mid suf : List Char} (h2 : 2 ≤ mid.length) :
    sliceTo (pre ++ (mid ++ suf)) pre.length (some (pre.length + mid.length - 1)) = mid := by
  simp only [sliceTo]
  rw [if_pos (by omega)]
  rw [List.drop_left]
  have he : pre.length + mid.length - 1 + 1 - pre.length = mid.length := by omega
  rw [he, List.take_left]

theorem fenceAfterOk_ws_ticks {w : Char} (hw : isPyWs w = true) :
    fenceAfterOk (w :: [btick, btick, btick]) = true := by
  have h1 : List.dropWhile isPyWs (w :: [btick, btick, btick]) = [btick, btick, btick] := by
    rw [List.dropWhile_cons, if_pos hw]
    decide
  unfold fenceAfterOk
  rw [h1]
  decide

theorem closeScan_concat (cl w : Char) (body : List Char) (hw : isPyWs w = true)
    (h1 : cl ≠ w) (h2 : cl ≠ btick) :
    closeScan cl ((body ++ [cl]) ++ w :: [btick, btick, btick]) = some (body ++ [cl]) := by
  have hr3 : (body ++ [cl]) ++ w :: [btick, btick, btick] =
      body ++ (cl :: w :: [btick, btick, btick]) := by simp
  have hlen : ((body ++ [cl]) ++ w :: [btick, btick, btick]).length = body.length + 5 := by
    simp
  have hp : (((body ++ [cl]) ++ w :: [btick, btick, btick])[body.length]? == some cl &&
      fenceAfterOk (((body ++ [cl]) ++ w :: [btick, btick, btick]).drop (body.length + 1)))
      = true := by
    have hg : ((body ++ [cl]) ++ w :: [btick, btick, btick])[body.length]? = some cl := by
      rw [hr3, List.getElem?_append_right (le_refl body.length)]
      simp
    have hd : ((body ++ [cl]) ++ w :: [btick, btick, btick]).drop (body.length + 1) =
        w :: [btick, btick, btick] := by
      rw [List.drop_left' (by simp)]
    rw [hg, hd, fenceAfterOk_ws_ticks hw]
    simp
  have habove : ∀ k, body.length < k → k < body.length + 5 →
      ((((body ++ [cl]) ++ w :: [btick, btick, btick])[k]? == some cl &&
        fenceAfterOk (((body ++ [cl]) ++ w :: [btick, btick, btick]).drop (k + 1)))
       = false) := by
    intro k hk1 hk2
    have hg : ((body ++ [cl]) ++ w :: [btick, btick, btick])[k]? =
        (cl :: w :: [btick, btick, btick])[k - body.length]? := by
      rw [hr3, List.getElem?_append_right (by omega)]
    have hne : ((body ++ [cl]) ++ w :: [btick, btick, btick])[k]? ≠ some cl := by
      rw [hg]
      have : k - body.length = 1 ∨ k - body.length = 2 ∨ k - body.length = 3 ∨
          k - body.length = 4 := by omega
      rcases this with h | h | h | h <;> rw [h] <;> simp <;> intro he <;>
        first
        | exact h1 he.symm
        | exact h2 he.symm
    rw [beq_eq_false_iff_ne.mpr hne]
    rfl
  unfold closeScan
  have hls : lastSat
      (fun q => ((body ++ [cl]) ++ w :: [btick, btick, btick])[q]? == some cl &&
        fenceAfterOk (((body ++ [cl]) ++ w :: [btick, btick, btick]).drop (q + 1)))
      (((body ++ [cl]) ++ w :: [btick, btick, btick]).length) = some body.length := by
    rw [hlen]
    exact lastSat_eq_some (by omega) hp (fun k hka hkb => habove k hka hkb)
  rw [hls]
  simp only [Option.map_some']
  have ht : body.length + 1 = (body ++ [cl]).length := by simp
  rw [ht, List.take_left]

end PDT
namespace PDT

theorem tryFence_wrapJson {x : List Char} {op cl : Char}
    (hop : op = '{' ∧ cl = '}' ∨ op = '[' ∧ cl = ']') (inner : List Char)
    (hx : x = (op :: inner) ++ [cl]) : tryFence (wrapJson x) = some x := by
  have hshape : wrapJson x =
      btick :: btick :: btick ::
        ('j' :: 's' :: 'o' :: 'n' :: '\n' :: (x ++ "\n```".toList)) := by
    show ("```json\n".toList ++ x) ++ "\n```".toList = _
    rw [List.append_assoc]
    rfl
  rw [hshape]
  have hpre : ("json".toList).isPrefixOf
      ('j' :: 's' :: 'o' :: 'n' :: '\n' :: (x ++ "\n```".toList)) = true := by
    simp [List.isPrefixOf]
  have hr3 : List.dropWhile isPyWs ('\n' :: (x ++ "\n```".toList)) =
      x ++ "\n```".toList := by
    rw [List.dropWhile_cons, if_pos (by decide)]
    rw [hx, show ((op :: inner) ++ [cl]) ++ "\n```".toList =
      op :: (inner ++ [cl] ++ "\n```".toList) from by simp]
    refine dropWhile_cons_false ?_ _
    rcases hop with ⟨h1, _⟩ | ⟨h1, _⟩ <;> rw [h1] <;> decide
  unfold tryFence
  simp only
  rw [if_pos ⟨trivial, trivial, trivial⟩]
  simp only [hpre, if_true, List.drop_succ_cons, List.drop_zero, hr3]
  rcases hop with ⟨h1, h2⟩ | ⟨h1, h2⟩
  · have hh : (x ++ "\n```".toList).head? = some '{' := by
      rw [hx, h1]
      rfl
    rw [if_pos hh]
    have := closeScan_concat '}' '\n' (op :: inner)
      (by decide) (by decide) (by decide)
    rw [show x ++ "\n```".toList = ((op :: inner) ++ [cl]) ++ '\n' :: [btick, btick, btick]
      from by rw [hx]; rfl]
    rw [h2]
    rw [h1] at this ⊢
    exact this.trans (by rw [hx, h1, h2])
  · have hh : (x ++ "\n```".toList).head? = some '[' := by
      rw [hx, h1]
      rfl
    have hh2 : ¬ (x ++ "\n```".toList).head? = some '{' := by
      rw [hh]
      intro he
      injection he with he2
      exact absurd he2 (by decide)
    rw [if_neg hh2, if_pos hh]
    have := closeScan_concat ']' '\n' (op :: inner)
      (by decide) (by decide) (by decide)
    rw [show x ++ "\n```".toList = ((op :: inner) ++ [cl]) ++ '\n' :: [btick, btick, btick]
      from by rw [hx]; rfl]
    rw [h2]
    rw [h1] at this ⊢
    exact this.trans (by rw [hx, h1, h2])

end PDT
namespace PDT

theorem tryFence_wrapBare {x : List Char} {op cl : Char}
    (hop : op = '{' ∧ cl = '}' ∨ op = '[' ∧ cl = ']') (inner : List Char)
    (hx : x = (op :: inner) ++ [cl]) : tryFence (wrapBare x) = some x := by
  have hshape : wrapBare x =
      btick :: btick :: btick :: (' ' :: (x ++ " ```".toList)) := by
    show ("``` ".toList ++ x) ++ " ```".toList = _
    rw [List.append_assoc]
    rfl
  rw [hshape]
  have hpre : ("json".toList).isPrefixOf (' ' :: (x ++ " ```".toList)) = false := by
    simp [List.isPrefixOf]
  have hr3 : List.dropWhile isPyWs (' ' :: (x ++ " ```".toList)) =
      x ++ " ```".toList := by
    rw [List.dropWhile_cons, if_pos (by decide)]
    rw [hx, show ((op :: inner) ++ [cl]) ++ " ```".toList =
      op :: (inner ++ [cl] ++ " ```".toList) from by simp]
    refine dropWhile_cons_false ?_ _
    rcases hop with ⟨h1, _⟩ | ⟨h1, _⟩ <;> rw [h1] <;> decide
  unfold tryFence
  simp only
  rw [if_pos ⟨trivial, trivial, trivial⟩]
  simp only [hpre, Bool.false_eq_true, if_false, hr3]
  rcases hop with ⟨h1, h2⟩ | ⟨h1, h2⟩
  · have hh : (x ++ " ```".toList).head? = some '{' := by
      rw [hx, h1]
      rfl
    rw [if_pos hh]
    have := closeScan_concat '}' ' ' (op :: inner)
      (by decide) (by decide) (by decide)
    rw [show x ++ " ```".toList = ((op :: inner) ++ [cl]) ++ ' ' :: [btick, btick, btick]
      from by rw [hx]; rfl]
    rw [h2]
    rw [h1] at this ⊢
    exact this.trans (by rw [hx, h1, h2])
  · have hh : (x ++ " ```".toList).head? = some '[' := by
      rw [hx, h1]
      rfl
    have hh2 : ¬ (x ++ " ```".toList).head? = some '{' := by
      rw [hh]
      intro he
      injection he with he2
      exact absurd he2 (by decide)
    rw [if_neg hh2, if_pos hh]
    have := closeScan_concat ']' ' ' (op :: inner)
      (by decide) (by decide) (by decide)
    rw [show x ++ " ```".toList = ((op :: inner) ++ [cl]) ++ ' ' :: [btick, btick, btick]
      from by rw [hx]; rfl]
    rw [h2]
    rw [h1] at this ⊢
    exact this.trans (by rw [hx, h1, h2])

theorem fenceSearch_wrapJson {x : List Char} {op cl : Char}
    (hop : op = '{' ∧ cl = '}' ∨ op = '[' ∧ cl = ']') (inner : List Char)
    (hx : x = (op :: inner) ++ [cl]) : fenceSearch (wrapJson x) = some x := by
  have ht := tryFence_wrapJson hop inner hx
  have hshape : wrapJson x =
      btick :: ("``json\n".toList ++ x ++ "\n```".toList) := by
    show ("```json\n".toList ++ x) ++ "\n```".toList = _
    rfl
  rw [hshape] at ht ⊢
  unfold fenceSearch
  rw [ht]

theorem fenceSearch_wrapBare {x : List Char} {op cl : Char}
    (hop : op = '{' ∧ cl = '}' ∨ op = '[' ∧ cl = ']') (inner : List Char)
    (hx : x = (op :: inner) ++ [cl]) : fenceSearch (wrapBare x) = some x := by
  have ht := tryFence_wrapBare hop inner hx
  have hshape : wrapBare x =
      btick :: ("`` ".toList ++ x ++ " ```".toList) := by
    show ("``` ".toList ++ x) ++ " ```".toList = _
    rfl
  rw [hshape] at ht ⊢
  unfold fenceSearch
  rw [ht]

theorem tailParse_strip_dumps {v : JVal}
    (hv : (∃ ms, v = JVal.obj ms) ∨ (∃ es, v = JVal.arr es)) :
    tailParse (stripPy (dumps v)) = .ok v := by
  have hlast : ∀ c, (dumps v).getLast? = some c → isPyWs c = false := by
    rcases hv with ⟨ms, rfl⟩ | ⟨es, rfl⟩
    · intro c hc
      have hd : dumps (JVal.obj ms) = ('{' :: dumpsMembers ms) ++ ['}'] := by simp [dumps]
      rw [hd, List.getLast?_concat] at hc
      simp only [Option.some_inj] at hc
      rw [← hc]
      decide
    · intro c hc
      have hd : dumps (JVal.arr es) = ('[' :: dumpsElems es) ++ [']'] := by simp [dumps]
      rw [hd, List.getLast?_concat] at hc
      simp only [Option.some_inj] at hc
      rw [← hc]
      decide
  obtain ⟨c, t, he, _, hpy, _, _⟩ := dumps_head v
  have hstrip : stripPy (dumps v) = dumps v := by
    refine stripPy_eq_self (fun c' hc' => ?_) hlast
    rw [he] at hc'
    simp only [List.head?_cons, Option.some_inj] at hc'
    exact hc' ▸ hpy
  rw [hstrip]
  exact tailParse_dumps v

theorem dumps_container_shape {v : JVal}
    (hv : (∃ ms, v = JVal.obj ms) ∨ (∃ es, v = JVal.arr es)) :
    ∃ op inner cl, dumps v = (op :: inner) ++ [cl] ∧
      (op = '{' ∧ cl = '}' ∨ op = '[' ∧ cl = ']') := by
  rcases hv with ⟨ms, rfl⟩ | ⟨es, rfl⟩
  · exact ⟨'{', dumpsMembers ms, '}', by simp [dumps], Or.inl ⟨rfl, rfl⟩⟩
  · exact ⟨'[', dumpsElems es, ']', by simp [dumps], Or.inr ⟨rfl, rfl⟩⟩

theorem extract_wrapJson_dumps {v : JVal}
    (hv : (∃ ms, v = JVal.obj ms) ∨ (∃ es, v = JVal.arr es)) :
    extract (wrapJson (dumps v)) = .ok v := by
  obtain ⟨op, inner, cl, hx, hop⟩ := dumps_container_shape hv
  have hne : wrapJson (dumps v) ≠ [] := by
    show ("```json\n".toList ++ dumps v) ++ "\n```".toList ≠ []
    simp
  unfold extract candidate
  rw [if_neg hne, fenceSearch_wrapJson hop inner hx]
  exact tailParse_strip_dumps hv

theorem extract_wrapBare_dumps {v : JVal}
    (hv : (∃ ms, v = JVal.obj ms) ∨ (∃ es, v = JVal.arr es)) :
    extract (wrapBare (dumps v)) = .ok v := by
  obtain ⟨op, inner, cl, hx, hop⟩ := dumps_container_shape hv
  have hne : wrapBare (dumps v) ≠ [] := by
    show ("``` ".toList ++ dumps v) ++ " ```".toList ≠ []
    simp
  unfold extract candidate
  rw [if_neg hne, fenceSearch_wrapBare hop inner hx]
  exact tailParse_strip_dumps hv

end PDT
namespace PDT

theorem strategy2_prose {v : JVal} {pre suf : List Char}
    (hv : (∃ ms, v = JVal.obj ms) ∨ (∃ es, v = JVal.arr es))
    (hpre : ∀ c ∈ pre, c ≠ '{' ∧ c ≠ '}' ∧ c ≠ '[' ∧ c ≠ ']')
    (hsuf : ∀ c ∈ suf, c ≠ '{' ∧ c ≠ '}' ∧ c ≠ '[' ∧ c ≠ ']') :
    strategy2 (pre ++ (dumps v ++ suf)) = dumps v := by
  obtain ⟨op, inner, cl, hx, hop⟩ := dumps_container_shape hv
  have hlen : (dumps v).length = inner.length + 2 := by rw [hx]; simp
  have hml : 2 ≤ (dumps v).length := by omega
  rcases hop with ⟨h1, h2⟩ | ⟨h1, h2⟩
  · -- object: first '{' at pre.length, rfind '}' at pre.length + len - 1
    have hf : firstIdx '{' (pre ++ (dumps v ++ suf)) = some pre.length := by
      rw [firstIdx_app_of_not_mem _ (fun hc => ((hpre _ hc).1 rfl).elim)]
      rw [show dumps v ++ suf = '{' :: (inner ++ [cl] ++ suf) from by rw [hx, h1]; simp]
      rw [firstIdx_cons_self]
      simp
    have hcl : lastIdx '}' (dumps v) = some ((dumps v).length - 1) := by
      rw [hx, h2, lastIdx_concat_self]
      simp
    have hl : lastIdx '}' (pre ++ (dumps v ++ suf)) =
        some (pre.length + ((dumps v).length - 1)) := by
      rw [show pre ++ (dumps v ++ suf) = (pre ++ dumps v) ++ suf from by simp]
      rw [lastIdx_app_left _ (fun hc => ((hsuf _ hc).2.1 rfl).elim)]
      exact lastIdx_app_right pre hcl
    have hslice : sliceTo (pre ++ (dumps v ++ suf)) pre.length
        (some (pre.length + ((dumps v).length - 1))) = dumps v := by
      rw [show pre.length + ((dumps v).length - 1) = pre.length + (dumps v).length - 1
        from by omega]
      exact sliceTo_mid hml
    cases hb : firstIdx '[' (pre ++ (dumps v ++ suf)) with
    | none =>
      simp only [strategy2, hf, hb, hl]
      exact hslice
    | some k =>
      have hk : pre.length < k := by
        rw [firstIdx_app_of_not_mem _ (fun hc => ((hpre _ hc).2.2.1 rfl).elim)] at hb
        simp only [Option.map_eq_some'] at hb
        obtain ⟨j, hj, hjk⟩ := hb
        have hj' : firstIdx '[' (op :: (inner ++ [cl] ++ suf)) = some j := by
          rw [← hj]
          congr 1
          rw [hx]
          simp
        have hj0 : 0 < j := firstIdx_cons_ne (by rw [h1]; decide) hj'
        omega
      simp only [strategy2, hf, hb, hl, if_pos hk]
      exact hslice
  · -- array: first '[' at pre.length, rfind ']' at pre.length + len - 1
    have hf : firstIdx '[' (pre ++ (dumps v ++ suf)) = some pre.length := by
      rw [firstIdx_app_of_not_mem _ (fun hc => ((hpre _ hc).2.2.1 rfl).elim)]
      rw [show dumps v ++ suf = '[' :: (inner ++ [cl] ++ suf) from by rw [hx, h1]; simp]
      rw [firstIdx_cons_self]
      simp
    have hcl : lastIdx ']' (dumps v) = some ((dumps v).length - 1) := by
      rw [hx, h2, lastIdx_concat_self]
      simp
    have hl : lastIdx ']' (pre ++ (dumps v ++ suf)) =
        some (pre.length + ((dumps v).length - 1)) := by
      rw [show pre ++ (dumps v ++ suf) = (pre ++ dumps v) ++ suf from by simp]
      rw [lastIdx_app_left _ (fun hc => ((hsuf _ hc).2.2.2 rfl).elim)]
      exact lastIdx_app_right pre hcl
    have hslice : sliceTo (pre ++ (dumps v ++ suf)) pre.length
        (some (pre.length + ((dumps v).length - 1))) = dumps v := by
      rw [show pre.length + ((dumps v).length - 1) = pre.length + (dumps v).length - 1
        from by omega]
      exact sliceTo_mid hml
    cases hb : firstIdx '{' (pre ++ (dumps v ++ suf)) with
    | none =>
      simp only [strategy2, hf, hb, hl]
      exact hslice
    | some k =>
      have hk : pre.length < k := by
        rw [firstIdx_app_of_not_mem _ (fun hc => ((hpre _ hc).1 rfl).elim)] at hb
        simp only [Option.map_eq_some'] at hb
        obtain ⟨j, hj, hjk⟩ := hb
        have hj' : firstIdx '{' (op :: (inner ++ [cl] ++ suf)) = some j := by
          rw [← hj]
          congr 1
          rw [hx]
          simp
        have hj0 : 0 < j := firstIdx_cons_ne (by rw [h1]; decide) hj'
        omega
      simp only [strategy2, hf, hb, hl, if_neg (by omega : ¬ k < pre.length)]
      exact hslice

end PDT

namespace PDT

theorem extract_prose {v : JVal} {pre suf : List Char}
    (hv : (∃ ms, v = JVal.obj ms) ∨ (∃ es, v = JVal.arr es))
    (ht : ¬ [btick, btick, btick] <:+: dumps v)
    (hpre : ∀ c ∈ pre, c ≠ '{' ∧ c ≠ '}' ∧ c ≠ '[' ∧ c ≠ ']' ∧ c ≠ btick)
    (hsuf : ∀ c ∈ suf, c ≠ '{' ∧ c ≠ '}' ∧ c ≠ '[' ∧ c ≠ ']' ∧ c ≠ btick) :
    extract (pre ++ (dumps v ++ suf)) = .ok v := by
  obtain ⟨c, t, he, _, _, _, _⟩ := dumps_head v
  have hne : pre ++ (dumps v ++ suf) ≠ [] := by
    intro h
    rcases List.append_eq_nil.mp h with ⟨_, h2⟩
    rcases List.append_eq_nil.mp h2 with ⟨h3, _⟩
    rw [he] at h3
    exact List.noConfusion h3
  have hticks : ¬ [btick, btick, btick] <:+: pre ++ (dumps v ++ suf) := by
    intro hi
    have h2 : [btick, btick, btick] <:+: dumps v ++ suf := by
      refine infix_right_of_not_mem_left hi (fun x hx hxp => ?_) (by decide)
      have hxb : x = btick := by
        simpa using hx
      exact (hpre _ hxp).2.2.2.2 hxb
    have h3 : [btick, btick, btick] <:+: dumps v := by
      refine infix_left_of_not_mem_right h2 (fun x hx hxs => ?_) (by decide)
      have hxb : x = btick := by
        simpa using hx
      exact (hsuf _ hxs).2.2.2.2 hxb
    exact ht h3
  unfold extract candidate
  rw [if_neg hne, fenceSearch_none_of_no_ticks hticks,
    strategy2_prose hv (fun x hx => ⟨(hpre x hx).1, (hpre x hx).2.1, (hpre x hx).2.2.1,
      (hpre x hx).2.2.2.1⟩)
    (fun x hx => ⟨(hsuf x hx).1, (hsuf x hx).2.1, (hsuf x hx).2.2.1, (hsuf x hx).2.2.2.1⟩)]
  exact tailParse_strip_dumps hv

end PDT
namespace PDT

/-! ### The claims -/

/-- C1: the spec describes a two-pass truncation repair for a mapping whose
"ideas" array was cut off, but `parse_json_response` has no such code path.
On the flagship truncated input of the spec, the sliced candidate (first
opener to the rfind of the closer, which drops only the trailing comma) fails
both the strict and the permissive parse, and extraction fails with the
UnparsableResponseError carrying that candidate as its diagnostic. -/
theorem c1_truncated_ideas_fails :
    extract "\x7b\"ideas\": [\x7b\"title\": \"A\"\x7d, \x7b\"title\": \"B\"\x7d,".toList =
      .error (.unparsable
        "\x7b\"ideas\": [\x7b\"title\": \"A\"\x7d, \x7b\"title\": \"B\"\x7d".toList) := rfl

/-- Counterexample for C1: on the truncated input the extractor does not
return the repaired mapping the spec promises. -/
theorem c1_no_repair_counterexample :
    extract "\x7b\"ideas\": [\x7b\"title\": \"A\"\x7d, \x7b\"title\": \"B\"\x7d,".toList ≠
      .ok (.obj [("ideas".toList, .arr [.obj [("title".toList, .str "A".toList)],
        .obj [("title".toList, .str "B".toList)]])]) := by
  intro h
  rw [show extract "\x7b\"ideas\": [\x7b\"title\": \"A\"\x7d, \x7b\"title\": \"B\"\x7d,".toList =
      .error (.unparsable
        "\x7b\"ideas\": [\x7b\"title\": \"A\"\x7d, \x7b\"title\": \"B\"\x7d".toList) from rfl] at h
  exact Except.noConfusion h

/-- C2: only the genuinely empty string hits the falsy-input check and raises
the distinguished empty-input error; an input of whitespace characters only is
truthy, survives to the parse stage, strips to the empty string there, and
fails with the generic UnparsableResponseError (whose diagnostic is empty). -/
theorem c2_whitespace_input (l : List Char) (hws : ∀ c ∈ l, isPyWs c = true) :
    extract l = if l = [] then .error .empty else .error (.unparsable []) := by
  by_cases h0 : l = []
  · subst h0
    rfl
  · have hb : '{' ∉ l := fun hc => absurd (hws _ hc) (by decide)
    have hk : '[' ∉ l := fun hc => absurd (hws _ hc) (by decide)
    rw [if_neg h0, extract_no_candidate h0 hb hk, stripPy_all_ws hws]
    rfl

/-- Witness for C2 at the whitespace-only input of the spec. -/
theorem c2_whitespace_witness :
    extract "   ".toList = .error (.unparsable []) := by
  have h := c2_whitespace_input ("   ".toList) (by decide)
  rwa [if_neg (by decide)] at h

/-- Counterexample for C2: the whitespace-only input fails with the generic
unparsable error, which is not the empty-input error. -/
theorem c2_not_empty_error :
    extract "   ".toList = .error (.unparsable []) ∧
      PyErr.unparsable [] ≠ PyErr.empty := ⟨rfl, by decide⟩

/-- C3: with no opening brace or bracket anywhere, neither the fence regex
nor strategy 2 restricts the candidate, so extraction degenerates to parsing
the whole stripped input; any failure is the UnparsableResponseError carrying
the first 50 characters of that candidate, but scalar literals still parse,
so the claim that extraction never succeeds on such input is false. -/
theorem c3_no_brace_no_bracket (l : List Char) (h0 : l ≠ [])
    (hb : '{' ∉ l) (hk : '[' ∉ l) :
    extract l = tailParse (stripPy l) ∧
    ∀ e, extract l = .error e → e = .unparsable ((stripPy l).take 50) := by
  refine ⟨extract_no_candidate h0 hb hk, ?_⟩
  intro e he
  rw [extract_no_candidate h0 hb hk] at he
  unfold tailParse at he
  cases hj : jsonLoads (stripPy l) with
  | some w => rw [hj] at he; exact Except.noConfusion he
  | none =>
    rw [hj] at he
    cases hp : pyLiteralEval (stripPy l) with
    | some w => rw [hp] at he; exact Except.noConfusion he
    | none =>
      rw [hp] at he
      injection he with h1
      exact h1.symm

/-- Witness for C3 at the refusal prose of the spec. -/
theorem c3_refusal_witness :
    extract "The model refused to answer.".toList =
      .error (.unparsable "The model refused to answer.".toList) := by
  have h := c3_no_brace_no_bracket ("The model refused to answer.".toList)
    (by decide) (by decide) (by decide)
  rw [h.1]
  rfl

/-- Counterexample for C3: a brace-free, bracket-free scalar input succeeds. -/
theorem c3_scalar_succeeds : extract "42".toList = .ok (.num 42) := rfl

/-- C4: serialize-then-extract is the identity on mappings and sequences whose
serialization contains no triple-backtick run; with one, the fence regex can
fire inside a serialized string value and extraction diverges. -/
theorem c4_round_trip (v : JVal)
    (hv : (∃ ms, v = JVal.obj ms) ∨ (∃ es, v = JVal.arr es))
    (ht : ¬ [btick, btick, btick] <:+: dumps v) :
    extract (dumps v) = .ok v := by
  rcases hv with ⟨ms, rfl⟩ | ⟨es, rfl⟩
  · exact extract_dumps_obj ms ht
  · exact extract_dumps_arr es ht

/-- Witness for C4 at a one-entry mapping. -/
theorem c4_round_trip_witness :
    extract (dumps (JVal.obj [("a".toList, .num 1)])) =
      .ok (JVal.obj [("a".toList, .num 1)]) :=
  c4_round_trip _ (Or.inl ⟨_, rfl⟩) (by decide)

/-- Counterexample for C4: a mapping whose string value embeds a fenced-block
marker round-trips to an error, because the fence regex matches inside the
serialized string. -/
theorem c4_ticks_counterexample :
    extract (dumps (JVal.obj [("k".toList, .str "```\x7ba\x7d```".toList)])) =
      .error (.unparsable "\x7ba\x7d".toList) := rfl

/-- C5: the fence regex anchors at the first fence opener but its capture
group is greedy, ending at the last closer that is followed by a fence
marker; with two fenced blocks the candidate spans from the first block
through the second, and parsing that span fails, instead of using the first
block interior as the spec claims. -/
theorem c5_greedy_spans_blocks :
    extract
      "```json\n\x7b\"a\": 1\x7d\n```\ntext\n```json\n\x7b\"b\": 2\x7d\n```".toList =
      .error (.unparsable
        "\x7b\"a\": 1\x7d\n```\ntext\n```json\n\x7b\"b\": 2\x7d".toList) ∧
    extract "```json\n\x7b\"a\": 1\x7d\n```".toList =
      .ok (.obj [("a".toList, .num 1)]) := ⟨rfl, rfl⟩

/-- Counterexample for C5: with two fenced blocks the extractor does not
return the first block interior. -/
theorem c5_not_first_block :
    extract
      "```json\n\x7b\"a\": 1\x7d\n```\ntext\n```json\n\x7b\"b\": 2\x7d\n```".toList ≠
      .ok (.obj [("a".toList, .num 1)]) := by
  intro h
  rw [show extract
      "```json\n\x7b\"a\": 1\x7d\n```\ntext\n```json\n\x7b\"b\": 2\x7d\n```".toList =
      .error (.unparsable
        "\x7b\"a\": 1\x7d\n```\ntext\n```json\n\x7b\"b\": 2\x7d".toList) from rfl] at h
  exact Except.noConfusion h

/-- C6: wrapping the serialization of a mapping or sequence in a json-tagged
or bare fenced block leaves the extraction result unchanged, provided the
payload itself is a mapping or sequence (the fence group must open with a
brace or bracket; a fenced scalar does not match and then fails) and its
serialization contains no triple-backtick run of its own. -/
theorem c6_fence_tolerance (v : JVal)
    (hv : (∃ ms, v = JVal.obj ms) ∨ (∃ es, v = JVal.arr es))
    (ht : ¬ [btick, btick, btick] <:+: dumps v) :
    extract (wrapJson (dumps v)) = extract (dumps v) ∧
    extract (wrapBare (dumps v)) = extract (dumps v) := by
  have hd : extract (dumps v) = .ok v := by
    rcases hv with ⟨ms, rfl⟩ | ⟨es, rfl⟩
    · exact extract_dumps_obj ms ht
    · exact extract_dumps_arr es ht
  exact ⟨by rw [extract_wrapJson_dumps hv, hd], by rw [extract_wrapBare_dumps hv, hd]⟩

/-- Witness for C6 at a one-entry mapping. -/
theorem c6_fence_witness :
    extract (wrapJson (dumps (JVal.obj [("b".toList, .num 2)]))) =
      extract (dumps (JVal.obj [("b".toList, .num 2)])) ∧
    extract (wrapBare (dumps (JVal.obj [("b".toList, .num 2)]))) =
      extract (dumps (JVal.obj [("b".toList, .num 2)])) :=
  c6_fence_tolerance _ (Or.inl ⟨_, rfl⟩) (by decide)

/-- Counterexample for C6: a fenced scalar payload is valid JSON text, yet
its wrapped extraction fails while the direct extraction succeeds. -/
theorem c6_scalar_counterexample :
    extract (wrapJson (dumps (.num 42))) =
      .error (.unparsable "```json\n42\n```".toList) ∧
    extract (dumps (.num 42)) = .ok (.num 42) := ⟨rfl, rfl⟩

/-- C7: a mapping whose string value contains a closing brace survives the
naive first-opener and rfind-closer boundary detection, because the last
brace of the text is the real closer; the strict parse then reads the
embedded brace as string content. -/
theorem c7_embedded_brace :
    extract "\x7b\"key\": \"value with \x7d inside\"\x7d".toList =
      .ok (.obj [("key".toList, .str "value with \x7d inside".toList)]) := rfl

/-- C8: surrounding the serialization of a mapping or sequence with prose
leaves the extraction result unchanged, provided the prose contains no brace,
bracket or backtick characters at all; the balance condition of the spec is
not enough, since strategy 2 anchors on the first opener and the rfind of the
closer irrespective of nesting. -/
theorem c8_prose_tolerance (v : JVal) (pre suf : List Char)
    (hv : (∃ ms, v = JVal.obj ms) ∨ (∃ es, v = JVal.arr es))
    (ht : ¬ [btick, btick, btick] <:+: dumps v)
    (hpre : ∀ c ∈ pre, c ≠ '{' ∧ c ≠ '}' ∧ c ≠ '[' ∧ c ≠ ']' ∧ c ≠ btick)
    (hsuf : ∀ c ∈ suf, c ≠ '{' ∧ c ≠ '}' ∧ c ≠ '[' ∧ c ≠ ']' ∧ c ≠ btick) :
    extract (pre ++ (dumps v ++ suf)) = extract (dumps v) := by
  rw [extract_prose hv ht hpre hsuf]
  rcases hv with ⟨ms, rfl⟩ | ⟨es, rfl⟩
  · rw [extract_dumps_obj ms ht]
  · rw [extract_dumps_arr es ht]

/-- Witness for C8 at a prose-wrapped one-entry mapping. -/
theorem c8_prose_witness :
    extract ("Result: ".toList ++
        (dumps (JVal.obj [("a".toList, .num 1)]) ++ " Enjoy!".toList)) =
      extract (dumps (JVal.obj [("a".toList, .num 1)])) :=
  c8_prose_tolerance _ _ _ (Or.inl ⟨_, rfl⟩) (by decide) (by decide) (by decide)

/-- Counterexample for C8: a prefix holding a balanced brace pair satisfies
the claim hypothesis yet changes the result from success to failure, because
the slice then runs from the prose brace to the payload closer. -/
theorem c8_balanced_prose_counterexample :
    extract ("\x7b\x7d ".toList ++ dumps (JVal.obj [("a".toList, .num 1)])) =
      .error (.unparsable "\x7b\x7d \x7b\"a\": 1\x7d".toList) ∧
    extract (dumps (JVal.obj [("a".toList, .num 1)])) =
      .ok (JVal.obj [("a".toList, .num 1)]) := ⟨rfl, rfl⟩

/-- C9: whenever extraction succeeds, the returned value is the strict-JSON
or permissive-literal parse of a contiguous substring of the input (the
stripped candidate); the extractor synthesizes nothing, and an input that
parses nowhere yields an error, never a partial value. -/
theorem c9_no_fabrication (text : List Char) (v : JVal)
    (h : extract text = .ok v) :
    ∃ s, s <:+: text ∧ (jsonLoads s = some v ∨ pyLiteralEval s = some v) := by
  by_cases h0 : text = []
  · rw [h0, show extract [] = .error .empty from rfl] at h
    exact Except.noConfusion h
  · unfold extract at h
    rw [if_neg h0] at h
    refine ⟨stripPy (candidate text),
      ( stripPy_infix _).trans ( candidate_infix text), ?_⟩
    unfold tailParse at h
    cases hj : jsonLoads (stripPy (candidate text)) with
    | some w =>
      rw [hj] at h
      injection h with hw
      exact Or.inl (congrArg some hw)
    | none =>
      rw [hj] at h
      cases hp : pyLiteralEval (stripPy (candidate text)) with
      | some w =>
        rw [hp] at h
        injection h with hw
        exact Or.inr (congrArg some hw)
      | none =>
        rw [hp] at h
        exact Except.noConfusion h

/-- Witness for C9 at a one-element sequence. -/
theorem c9_no_fabrication_witness :
    ∃ s, s <:+: "[1]".toList ∧
      (jsonLoads s = some (.arr [.num 1]) ∨ pyLiteralEval s = some (.arr [.num 1])) :=
  c9_no_fabrication "[1]".toList (.arr [.num 1]) rfl

end PDT
